import Mathlib

set_option autoImplicit false

/-!
Verification of the EspressoBot Tab Organizer core: the cleanup-candidate
detection engine (`detectCleanupCandidates` in `services/aiService.ts`),
the browser-capability detection and strategy-dispatched apply protocol
(`detectStrategy`, `applyTabGroups` in `public/background.js` and its
service-worker variant), the cleanup apply entry point (`applyCleanup` in
the background service-worker code of `docs/plans/2026-02-27-tab-cleanup.md`)
and the analysis-job protocol (`categorizeTabs` / `categorizeTabsAI`).

Modelling conventions: JavaScript `Map`s become insertion-ordered
association lists, `Array.prototype.sort` (required stable since ES2019)
becomes stable insertion sort (`List.insertionSort`), JS numbers become
`Int` (timestamps) and `Nat` (tab ids), `x ?? d` becomes `Option.getD`,
thrown errors become `Except`, and the browser host becomes an explicit
state record carrying a trace of the mutation primitives invoked on it.
-/

/-- One open browser tab as consumed by the cleanup detector
(`services/aiService.ts`): `id`, `title`, `url`, and the optional
`lastAccessed` timestamp in milliseconds since the epoch. The `favIconUrl`
field is never read by the detection logic and is omitted. -/
structure Tab where
  id : Nat
  title : String
  url : String
  lastAccessed : Option Int
deriving DecidableEq, Repr

/-- The `reason` field of a cleanup candidate: the string literals
`'stale'`, `'duplicate'` and `'stale+duplicate'` of the source. -/
inductive CleanupReason where
  | stale
  | duplicate
  | staleDuplicate
deriving DecidableEq, Repr

/-- A recommendation to close one tab (`CleanupCandidate` in `types.ts`). -/
structure CleanupCandidate where
  tabId : Nat
  reason : CleanupReason
  lastAccessed : Int
  duplicateOfTabId : Option Nat
deriving DecidableEq, Repr

/-- `STALE_THRESHOLD_MS = 2 * 60 * 60 * 1000` from `services/aiService.ts`. -/
def STALE_THRESHOLD_MS : Int := 2 * 60 * 60 * 1000

/-- `tab.lastAccessed ?? 0`: the ranking key used by the duplicate pass and
the `lastAccessed` field written into candidate records. -/
def laD (t : Tab) : Int := t.lastAccessed.getD 0

/-- `now - (tab.lastAccessed ?? now)`: the idle time of the staleness pass. -/
def idleOf (now : Int) (t : Tab) : Int := now - t.lastAccessed.getD now

/-- The order of the duplicate pass sort: `a` sorts no later than `b` under
the comparator `(b.lastAccessed ?? 0) - (a.lastAccessed ?? 0)`, ties broken
by `b.id - a.id` (descending `lastAccessed`, then descending id). -/
def dupLE (a b : Tab) : Prop :=
  laD b < laD a ∨ (laD b = laD a ∧ b.id ≤ a.id)

instance decDupLE : DecidableRel dupLE := fun a b =>
  inferInstanceAs (Decidable (laD b < laD a ∨ (laD b = laD a ∧ b.id ≤ a.id)))

instance totalDupLE : IsTotal Tab dupLE where
  total a b := by
    rcases lt_trichotomy (laD a) (laD b) with h | h | h
    · exact Or.inr (Or.inl h)
    · rcases Nat.le_total b.id a.id with hid | hid
      · exact Or.inl (Or.inr ⟨h.symm, hid⟩)
      · exact Or.inr (Or.inr ⟨h, hid⟩)
    · exact Or.inl (Or.inl h)

instance transDupLE : IsTrans Tab dupLE where
  trans a b c hab hbc := by
    rcases hab with hab | ⟨hab, hab2⟩ <;> rcases hbc with hbc | ⟨hbc, hbc2⟩
    · exact Or.inl (lt_trans hbc hab)
    · exact Or.inl (hbc ▸ hab)
    · exact Or.inl (hab ▸ hbc)
    · exact Or.inr ⟨hab ▸ hbc, Nat.le_trans hbc2 hab2⟩

/-- The order of the final output sort: the comparator
`a.lastAccessed - b.lastAccessed` (ascending, stalest first). -/
def candLE (a b : CleanupCandidate) : Prop := a.lastAccessed ≤ b.lastAccessed

instance decCandLE : DecidableRel candLE := fun a b =>
  inferInstanceAs (Decidable (a.lastAccessed ≤ b.lastAccessed))

instance totalCandLE : IsTotal CleanupCandidate candLE where
  total a b := le_total a.lastAccessed b.lastAccessed

instance transCandLE : IsTrans CleanupCandidate candLE where
  trans _ _ _ hab hbc := le_trans hab hbc

/-- `candidates.set(c.tabId, c)` on the insertion-ordered
`Map<number, CleanupCandidate>`: replace in place if the key is present,
otherwise append at the end. -/
def setCand : List CleanupCandidate → CleanupCandidate → List CleanupCandidate
  | [], c => [c]
  | d :: m, c => if d.tabId = c.tabId then c :: m else d :: setCand m c

/-- `candidates.get(id)` is defined (`existing` is truthy). -/
def hasCand (m : List CleanupCandidate) (id : Nat) : Bool :=
  m.any (fun c => c.tabId == id)

/-- `existing.reason = 'stale+duplicate'`: the in-place reason upgrade of
the record stored under `id`; every other field and the position in the
map are unchanged. -/
def upgradeCand (m : List CleanupCandidate) (id : Nat) : List CleanupCandidate :=
  m.map (fun c => if c.tabId = id then { c with reason := .staleDuplicate } else c)

/-- One step of building `byUrl : Map<string, Tab[]>`: push `t` onto the
bucket keyed by `t.url`, creating the bucket at the end of the
insertion-ordered map if absent. -/
def addToBucket : List (String × List Tab) → Tab → List (String × List Tab)
  | [], t => [(t.url, [t])]
  | (k, g) :: bs, t =>
    if k = t.url then (k, g ++ [t]) :: bs else (k, g) :: addToBucket bs t

/-- The `byUrl` map of the duplicate pass: tabs partitioned by exact URL
string, skipping tabs whose `url` is falsy (the empty string). Iteration
order of `byUrl.values()` is key-insertion order. -/
def byUrl (tabs : List Tab) : List (String × List Tab) :=
  tabs.foldl (fun bs t => if t.url = "" then bs else addToBucket bs t) []

/-- `byUrl.get(u)`, with the empty list for an absent key. -/
def findBucket : List (String × List Tab) → String → List Tab
  | [], _ => []
  | (k, g) :: bs, u => if k = u then g else findBucket bs u

/-- The candidate record written for a non-keeper duplicate tab. -/
def mkDupCand (keeperId : Nat) (t : Tab) : CleanupCandidate :=
  { tabId := t.id, reason := .duplicate, lastAccessed := laD t,
    duplicateOfTabId := some keeperId }

/-- The duplicate pass body for one URL bucket: groups of size `< 2` are
skipped; otherwise the bucket is sorted by descending `lastAccessed ?? 0`
(ties by descending id), the head is kept, and every other tab is recorded
as a duplicate of the keeper. -/
def dupPassGroup (m : List CleanupCandidate) (g : List Tab) : List CleanupCandidate :=
  if g.length < 2 then m
  else
    match List.insertionSort dupLE g with
    | [] => m
    | keeper :: rest =>
      rest.foldl (fun acc t => setCand acc (mkDupCand keeper.id t)) m

/-- The duplicate pass of `detectCleanupCandidates`: fold the per-bucket
body over `byUrl.values()` starting from the empty candidate map. -/
def dupPass (tabs : List Tab) : List CleanupCandidate :=
  (byUrl tabs).foldl (fun m b => dupPassGroup m b.2) []

/-- The candidate record written for a stale tab with no prior record. -/
def mkStaleCand (t : Tab) : CleanupCandidate :=
  { tabId := t.id, reason := .stale, lastAccessed := laD t,
    duplicateOfTabId := none }

/-- One iteration of the staleness pass: skip if the idle time is below
the threshold, upgrade an existing record's reason in place, or append a
fresh `'stale'` record (the key is absent, so `candidates.set` appends). -/
def stalePassStep (now : Int) (m : List CleanupCandidate) (t : Tab) : List CleanupCandidate :=
  if idleOf now t < STALE_THRESHOLD_MS then m
  else if hasCand m t.id then upgradeCand m t.id
  else m ++ [mkStaleCand t]

/-- The staleness pass of `detectCleanupCandidates`. -/
def stalePass (now : Int) (tabs : List Tab) (m : List CleanupCandidate) : List CleanupCandidate :=
  tabs.foldl (stalePassStep now) m

/-- `detectCleanupCandidates(tabs)` from `services/aiService.ts`, with
`Date.now()` passed explicitly: duplicate pass, then staleness pass, then
the final stable sort ascending by `lastAccessed`. -/
def detectCleanupCandidates (now : Int) (tabs : List Tab) : List CleanupCandidate :=
  List.insertionSort candLE (stalePass now tabs (dupPass tabs))

/-- The tabs of `tabs` whose `url` equals `u` exactly, in input order: the
contents `byUrl` collects under the key `u` (for a non-empty `u`). -/
def urlGroup (tabs : List Tab) (u : String) : List Tab :=
  tabs.filter (fun t => t.url == u)

/-- The candidate records stored under the key `id`, as a sublist: the
candidate map holds at most one. -/
def candsFor (m : List CleanupCandidate) (id : Nat) : List CleanupCandidate :=
  m.filter (fun c => c.tabId == id)

/-- The records the duplicate pass contributes for one URL bucket: nothing
for a bucket of size `< 2`, otherwise one `'duplicate'` record per
non-keeper tab, in sorted-bucket order. -/
def dupContrib (g : List Tab) : List CleanupCandidate :=
  if g.length < 2 then []
  else
    match List.insertionSort dupLE g with
    | [] => []
    | keeper :: rest => rest.map (mkDupCand keeper.id)

/-! ### Capability detection and the apply engine -/

/-- The process-wide cached grouping strategy: `'chrome-groups'`,
`'vivaldi-stacks'` or `'unsupported'` in the source. -/
inductive GroupingStrategy where
  | chromeGroups
  | vivaldiStacks
  | unsupported
deriving DecidableEq, Repr

/-- A raw tab as returned by `chrome.tabs.query`: for capability probing
only its id and whether it carries the Vivaldi-specific extension-data
field (`vivExtData` / `splitViewId`) matter. -/
structure HostTab where
  id : Nat
  hasVivExtData : Bool
deriving DecidableEq, Repr

/-- The host environment probed by `detectStrategy`: whether
`chrome.tabGroups` is defined, and the outcome of
`chrome.tabs.query({ currentWindow: true })` (which may throw). -/
structure Host where
  hasTabGroups : Bool
  queryTabs : Except String (List HostTab)

/-- `detectStrategy()` from `public/background.js`: Chrome/Edge native
groups if `chrome.tabGroups` exists; otherwise probe the first tab of the
current window for the Vivaldi extension-data field; otherwise — including
an empty query result or a thrown probe — unsupported. -/
def detectStrategy (h : Host) : GroupingStrategy :=
  if h.hasTabGroups then .chromeGroups
  else
    match h.queryTabs with
    | .error _ => .unsupported
    | .ok [] => .unsupported
    | .ok (t :: _) => if t.hasVivExtData then .vivaldiStacks else .unsupported

/-- One proposed group (`TabGroupProposal` in `types.ts`); the background
code treats `color` as a plain string. -/
structure TabGroupProposal where
  groupName : String
  color : String
  tabIds : List Nat
deriving DecidableEq, Repr

/-- `VIVALDI_COLOR_MAP` with its `|| 'Default'` fallback: the fixed lookup
table translating the AI palette into Vivaldi's `TabGroupColor` values. -/
def vivaldiColor : String → String
  | "grey" => "Grey"
  | "blue" => "Blue"
  | "red" => "Red"
  | "yellow" => "Yellow"
  | "green" => "Green"
  | "pink" => "Red"
  | "purple" => "Purple"
  | "cyan" => "Blue"
  | "orange" => "Orange"
  | _ => "Default"

/-- A browser mutation primitive invoked by the apply engine:
`chrome.tabs.remove` closing one tab, `chrome.tabs.group`,
`chrome.tabGroups.update`, or a Vivaldi `chrome.tabs.update` metadata
write (stack id, fixed group title, mapped color). -/
inductive MutOp where
  | removeTab (id : Nat)
  | groupTabs (gid : Nat) (ids : List Nat)
  | updateGroup (gid : Nat) (title color : String)
  | updateTab (id : Nat) (stackId : Nat) (title color : String)
deriving DecidableEq, Repr

/-- Whether a mutation primitive closes a tab (the closure step of
`applyCleanup`); everything else belongs to the grouping step. -/
def MutOp.isRemove : MutOp → Bool
  | .removeTab _ => true
  | _ => false

/-- The browser, as the apply engine observes and mutates it: the ids of
the open tabs of the current window, a counter supplying fresh
group/stack identifiers (`chrome.tabs.group` return values and
`crypto.randomUUID()`), and the trace of mutation primitives invoked so
far, in order. -/
structure Browser where
  openIds : List Nat
  nextId : Nat
  ops : List MutOp
deriving DecidableEq, Repr

/-- The host primitive `chrome.tabs.remove(ids)`. Not part of this
repository; modelled after Chromium's implementation: the ids are
processed left to right, each existing tab is closed, and the first id
with no live tab aborts the whole call with an error (`false`), leaving
every id after it untouched. -/
def tabsRemove : List Nat → Browser → Browser × Bool
  | [], s => (s, true)
  | id :: rest, s =>
    if id ∈ s.openIds then
      tabsRemove rest
        { s with openIds := s.openIds.filter (fun x => x ≠ id),
                 ops := s.ops ++ [.removeTab id] }
    else (s, false)

/-- The `'chrome-groups'` loop body of `applyTabGroups` (service-worker
variant): keep only tab ids that still exist in the pre-queried window,
skip the group if none survive, otherwise `chrome.tabs.group` the valid
ids and set the group's title and color. -/
def applyGroupChrome (existing : List Nat) (s : Browser) (g : TabGroupProposal) : Browser :=
  let validIds := g.tabIds.filter (fun i => existing.contains i)
  if validIds = [] then s
  else
    { s with
      nextId := s.nextId + 1,
      ops := s.ops ++ [.groupTabs s.nextId validIds,
                       .updateGroup s.nextId g.groupName g.color] }

/-- The `'vivaldi-stacks'` loop body (`applyTabGroupsVivaldi`): skip an
empty group, otherwise generate a fresh stack id and write the stack id,
title and mapped color into each tab's `vivExtData`; a tab that no longer
exists is skipped with a warning, not an error. -/
def applyGroupVivaldi (s : Browser) (g : TabGroupProposal) : Browser :=
  if g.tabIds = [] then s
  else
    let stackId := s.nextId
    let color := vivaldiColor g.color
    g.tabIds.foldl
      (fun acc i =>
        if i ∈ acc.openIds then
          { acc with ops := acc.ops ++ [.updateTab i stackId g.groupName color] }
        else acc)
      { s with nextId := s.nextId + 1 }

/-- `applyTabGroups(groups)` from the background service worker, with the
cached strategy passed explicitly: dispatch to the Vivaldi metadata path,
the Chrome native-groups path (which first queries the still-existing
tabs once), or throw `'Tab grouping is not supported in this browser'`. -/
def applyTabGroups (strategy : GroupingStrategy) (groups : List TabGroupProposal)
    (s : Browser) : Browser × Except String Unit :=
  match strategy with
  | .vivaldiStacks => (groups.foldl applyGroupVivaldi s, .ok ())
  | .chromeGroups => (groups.foldl (applyGroupChrome s.openIds) s, .ok ())
  | .unsupported => (s, .error "Tab grouping is not supported in this browser")

/-- Step 2 of `applyCleanup`: strip every closed id from every group's
tab-id list and drop any group whose list is then empty
(`groups.map(...).filter(g => g.tabIds.length > 0)`). -/
def stripClosed (tabIdsToClose : List Nat) (groups : List TabGroupProposal) :
    List TabGroupProposal :=
  (groups.map (fun g =>
      { g with tabIds := g.tabIds.filter (fun i => !(tabIdsToClose.contains i)) })).filter
    (fun g => !g.tabIds.isEmpty)

/-- `applyCleanup(tabIdsToClose, groups)` from the background
service-worker code of `docs/plans/2026-02-27-tab-cleanup.md`: first
request closure of the batch (a failed `chrome.tabs.remove` is caught,
logged and swallowed), then strip the closed ids from the groups, drop
groups left empty, and dispatch any remaining groups to
`applyTabGroups`. -/
def applyCleanup (strategy : GroupingStrategy) (tabIdsToClose : List Nat)
    (groups : List TabGroupProposal) (s : Browser) : Browser × Except String Unit :=
  let s1 := if tabIdsToClose = [] then s else (tabsRemove tabIdsToClose s).1
  if groups = [] then (s1, .ok ())
  else
    let filteredGroups := stripClosed tabIdsToClose groups
    if filteredGroups = [] then (s1, .ok ())
    else applyTabGroups strategy filteredGroups s1

/-! ### The analysis-job protocol -/

/-- `analysisStatus` of the background service worker:
`'idle' | 'analyzing' | 'success' | 'error'`. -/
inductive JobStatus where
  | idle
  | analyzing
  | success
  | error
deriving DecidableEq, Repr

/-- The background job slot: `analysisStatus`, `analysisProposals`,
`analysisError`. -/
structure JobState where
  status : JobStatus
  proposals : List TabGroupProposal
  errorMsg : String
deriving DecidableEq, Repr

/-- The popup's stored settings: the OpenRouter credential and model id. -/
structure Settings where
  apiKey : String
  model : String
deriving DecidableEq, Repr

/-- The outcome of the one `fetch` round trip of `categorizeTabsAI`, as
the code discriminates it: a transport-level failure (a rejected fetch, a
non-ok HTTP status, or an unparsable body — each surfaced as the thrown
message), a response with no `choices[0].message.content`, or parsed
content whose `groups` field is either a well-formed array (`some`) or
missing/not an array (`none`). -/
inductive AIResponse where
  | transportFail (msg : String)
  | noContent
  | okGroups (groups : Option (List TabGroupProposal))
deriving DecidableEq, Repr

/-- `categorizeTabsAI(tabs, settings)` from the background service worker:
sets the slot to `analyzing`, clears prior results, and unconditionally
performs the network round trip — there is no credential validation in
this function. Returns the final job slot and the number of network calls
performed (always exactly one). -/
def categorizeTabsAI (resp : AIResponse) (_tabs : List Tab) (_settings : Settings) :
    JobState × Nat :=
  match resp with
  | .transportFail m => (⟨.error, [], m⟩, 1)
  | .noContent => (⟨.error, [], "No response from AI model."⟩, 1)
  | .okGroups none => (⟨.error, [], "Invalid response structure from AI model."⟩, 1)
  | .okGroups (some gs) => (⟨.success, gs, ""⟩, 1)

/-- The popup-side `categorizeTabs(tabs, settings)` from
`services/aiService.ts` in the extension runtime: an empty tab list
resolves to `[]` at once; a falsy (empty) `apiKey` throws the
configuration error before anything is sent; otherwise the
`startCategorization` message fires `categorizeTabsAI` in the background
and the call resolves `[]` (results arrive later via polling). Returns
the call's outcome, the job slot after the call, and the number of
network calls performed. -/
def categorizeTabs (resp : AIResponse) (tabs : List Tab) (settings : Settings)
    (s : JobState) : Except String (List TabGroupProposal) × JobState × Nat :=
  if tabs = [] then (.ok [], s, 0)
  else if settings.apiKey = "" then
    (.error "No API key configured. Open settings to add your OpenRouter API key.",
      s, 0)
  else
    let r := categorizeTabsAI resp tabs settings
    (.ok [], r.1, r.2)

example :
    applyCleanup .chromeGroups [17, 23] [⟨"G", "blue", [40]⟩] ⟨[23, 40], 0, []⟩
      = (⟨[23, 40], 1, [.groupTabs 0 [40], .updateGroup 0 "G" "blue"]⟩, .ok ()) := by
  constructor

example :
    detectStrategy ⟨false, .ok [⟨7, true⟩]⟩ = .vivaldiStacks := by decide


/-! ## Generic fold helpers -/

lemma foldlPreserves {α β : Type} (P : β → Prop) (f : β → α → β) (l : List α) :
    ∀ b : β, (∀ b a, a ∈ l → P b → P (f b a)) → P b → P (l.foldl f b) := by
  induction l with
  | nil => intro b _ hb; exact hb
  | cons a l ih =>
    intro b hf hb
    exact ih (f b a) (fun b' a' ha' => hf b' a' (List.mem_cons_of_mem _ ha'))
      (hf b a (List.mem_cons_self a l) hb)

lemma foldlSkip {α β : Type} (f : β → α → β) (l : List α)
    (h : ∀ a ∈ l, ∀ b, f b a = b) : ∀ b, l.foldl f b = b := by
  induction l with
  | nil => intro b; rfl
  | cons a l ih =>
    intro b
    rw [List.foldl_cons, h a (List.mem_cons_self a l) b]
    exact ih (fun a' ha' b' => h a' (List.mem_cons_of_mem _ ha') b') b

lemma foldlFilterSkip {α β : Type} (p : α → Bool) (f : β → α → β) (l : List α)
    (h : ∀ a, p a = false → ∀ b, f b a = b) : ∀ b, (l.filter p).foldl f b = l.foldl f b := by
  induction l with
  | nil => intro b; rfl
  | cons a l ih =>
    intro b
    rw [List.filter_cons]
    by_cases hp : p a = true
    · rw [if_pos hp, List.foldl_cons, List.foldl_cons]
      exact ih (f b a)
    · have hp' : p a = false := by simpa using hp
      rw [if_neg hp, List.foldl_cons, h a hp' b]
      exact ih b

/-! ## The candidate map: `setCand`, `hasCand`, `upgradeCand`, `candsFor` -/

lemma keys_setCand (m : List CleanupCandidate) (c : CleanupCandidate) :
    (setCand m c).map CleanupCandidate.tabId =
      if c.tabId ∈ m.map CleanupCandidate.tabId then m.map CleanupCandidate.tabId
      else m.map CleanupCandidate.tabId ++ [c.tabId] := by
  induction m with
  | nil => simp [setCand]
  | cons d m ih =>
    by_cases hd : d.tabId = c.tabId
    · simp [setCand, hd]
    · have hne : ¬(c.tabId = d.tabId) := fun h => hd h.symm
      simp only [setCand, if_neg hd, List.map_cons, ih, List.mem_cons, hne, false_or]
      by_cases hmem : c.tabId ∈ m.map CleanupCandidate.tabId
      · rw [if_pos hmem, if_pos hmem]
      · rw [if_neg hmem, if_neg hmem, List.cons_append]

lemma setCand_of_not_mem {m : List CleanupCandidate} {c : CleanupCandidate}
    (h : c.tabId ∉ m.map CleanupCandidate.tabId) : setCand m c = m ++ [c] := by
  induction m with
  | nil => rfl
  | cons d m ih =>
    have hd : d.tabId ≠ c.tabId := fun hdc => h (by simp [hdc])
    simp only [setCand, if_neg hd, List.cons_append]
    rw [ih (fun hc => h (by simp [hc]))]

lemma nodup_keys_setCand {m : List CleanupCandidate} (c : CleanupCandidate)
    (h : (m.map CleanupCandidate.tabId).Nodup) :
    ((setCand m c).map CleanupCandidate.tabId).Nodup := by
  rw [keys_setCand]
  by_cases hmem : c.tabId ∈ m.map CleanupCandidate.tabId
  · simpa [hmem] using h
  · simp only [if_neg hmem]
    exact List.Nodup.append h (List.nodup_singleton _) (by simpa using hmem)

lemma mem_setCand {m : List CleanupCandidate} {c x : CleanupCandidate}
    (h : x ∈ setCand m c) : x = c ∨ x ∈ m := by
  induction m with
  | nil => simpa [setCand] using h
  | cons d m ih =>
    by_cases hd : d.tabId = c.tabId
    · simp only [setCand, if_pos hd, List.mem_cons] at h
      rcases h with h | h
      · exact Or.inl h
      · exact Or.inr (List.mem_cons_of_mem _ h)
    · simp only [setCand, if_neg hd, List.mem_cons] at h
      rcases h with h | h
      · exact Or.inr (by simp [h])
      · rcases ih h with h | h
        · exact Or.inl h
        · exact Or.inr (List.mem_cons_of_mem _ h)

lemma mem_setCand_of_ne {m : List CleanupCandidate} {c x : CleanupCandidate}
    (hx : x ∈ m) (hne : c.tabId ≠ x.tabId) : x ∈ setCand m c := by
  induction m with
  | nil => cases hx
  | cons d m ih =>
    by_cases hd : d.tabId = c.tabId
    · simp only [setCand, if_pos hd]
      rcases List.mem_cons.mp hx with h | h
      · exact absurd (h ▸ hd) (fun hh => hne hh.symm)
      · exact List.mem_cons_of_mem _ h
    · simp only [setCand, if_neg hd]
      rcases List.mem_cons.mp hx with h | h
      · exact h ▸ List.mem_cons_self _ _
      · exact List.mem_cons_of_mem _ (ih h)

lemma hasCand_iff (m : List CleanupCandidate) (id : Nat) :
    hasCand m id = true ↔ id ∈ m.map CleanupCandidate.tabId := by
  simp [hasCand, List.any_eq_true, List.mem_map]

lemma candsFor_eq_nil_iff (m : List CleanupCandidate) (id : Nat) :
    candsFor m id = [] ↔ id ∉ m.map CleanupCandidate.tabId := by
  simp [candsFor, List.filter_eq_nil_iff, List.mem_map]

lemma candsFor_append (m₁ m₂ : List CleanupCandidate) (id : Nat) :
    candsFor (m₁ ++ m₂) id = candsFor m₁ id ++ candsFor m₂ id := by
  simp [candsFor]

lemma mem_of_mem_candsFor {m : List CleanupCandidate} {id : Nat} {c : CleanupCandidate}
    (h : c ∈ candsFor m id) : c ∈ m ∧ c.tabId = id := by
  have := List.mem_filter.mp h
  exact ⟨this.1, by simpa using this.2⟩

lemma mem_candsFor_of_mem {m : List CleanupCandidate} {c : CleanupCandidate}
    (h : c ∈ m) : c ∈ candsFor m c.tabId :=
  List.mem_filter.mpr ⟨h, by simp⟩

lemma candsFor_of_mem_nodup {m : List CleanupCandidate} {r : CleanupCandidate}
    (h : r ∈ m) (hnd : (m.map CleanupCandidate.tabId).Nodup) :
    candsFor m r.tabId = [r] := by
  induction m with
  | nil => cases h
  | cons d m ih =>
    simp only [List.map_cons, List.nodup_cons] at hnd
    rcases List.mem_cons.mp h with h | h
    · subst h
      have h0 : List.filter (fun c => c.tabId == r.tabId) m = [] := by
        simpa [candsFor] using (candsFor_eq_nil_iff m r.tabId).mpr hnd.1
      simp [candsFor, List.filter_cons, h0]
    · have hd : d.tabId ≠ r.tabId := by
        intro hdr
        exact hnd.1 (hdr ▸ List.mem_map_of_mem CleanupCandidate.tabId h)
      have hd' : (d.tabId == r.tabId) = false := by simpa using hd
      simp only [candsFor, List.filter_cons, hd', Bool.false_eq_true, if_false]
      exact ih h hnd.2

lemma keys_upgradeCand (m : List CleanupCandidate) (id : Nat) :
    (upgradeCand m id).map CleanupCandidate.tabId = m.map CleanupCandidate.tabId := by
  induction m with
  | nil => rfl
  | cons d m ih =>
    simp only [upgradeCand, List.map_cons] at ih ⊢
    rw [ih]
    by_cases hd : d.tabId = id
    · rw [if_pos hd]
    · rw [if_neg hd]

lemma candsFor_upgradeCand_ne (m : List CleanupCandidate) {id idq : Nat} (h : id ≠ idq) :
    candsFor (upgradeCand m id) idq = candsFor m idq := by
  induction m with
  | nil => rfl
  | cons d m ih =>
    simp only [upgradeCand, List.map_cons, candsFor, List.filter_cons] at ih ⊢
    by_cases hd : d.tabId = id
    · have hq : (d.tabId == idq) = false := by
        simpa using fun hdq => h (hd ▸ hdq)
      rw [if_pos hd, hq]
      simp [ih]
    · rw [if_neg hd]
      by_cases hq : (d.tabId == idq) = true
      · rw [hq]
        simp [ih]
      · have hq' : (d.tabId == idq) = false := by simpa using hq
        rw [hq']
        simpa using ih

lemma candsFor_upgradeCand_self (m : List CleanupCandidate) (id : Nat) :
    candsFor (upgradeCand m id) id =
      (candsFor m id).map (fun c => { c with reason := .staleDuplicate }) := by
  induction m with
  | nil => rfl
  | cons d m ih =>
    simp only [upgradeCand, List.map_cons, candsFor, List.filter_cons] at ih ⊢
    by_cases hd : d.tabId = id
    · have hq : (d.tabId == id) = true := by simpa using hd
      rw [if_pos hd, hq]
      simp [ih]
    · have hq : (d.tabId == id) = false := by simpa using hd
      rw [if_neg hd, hq]
      exact ih

/-! ## The `byUrl` partition -/

lemma findBucket_addToBucket (bs : List (String × List Tab)) (t : Tab) (u : String) :
    findBucket (addToBucket bs t) u =
      if u = t.url then findBucket bs u ++ [t] else findBucket bs u := by
  induction bs with
  | nil =>
    by_cases h : u = t.url
    · simp [addToBucket, findBucket, h]
    · have h' : ¬(t.url = u) := fun hh => h hh.symm
      simp [addToBucket, findBucket, h, h']
  | cons kv bs ih =>
    obtain ⟨k, g⟩ := kv
    by_cases hk : k = t.url <;> by_cases hu : k = u
    · have huu : u = t.url := by rw [← hu]; exact hk
      simp [addToBucket, findBucket, hk, hu, huu]
    · have huu : ¬(u = t.url) := fun hh => hu (by rw [hk, hh])
      have huv : ¬(t.url = u) := fun hh => huu hh.symm
      simp [addToBucket, findBucket, hk, hu, huu, huv]
    · have huu : ¬(u = t.url) := fun hh => hk (by rw [hu, hh])
      have huv : ¬(t.url = u) := fun hh => huu hh.symm
      simp [addToBucket, findBucket, hk, hu, huu, huv]
    · simp [addToBucket, findBucket, hk, hu, ih]

lemma findBucket_byUrl_aux (l : List Tab) :
    ∀ (bs : List (String × List Tab)) (u : String), u ≠ "" →
      findBucket
          (l.foldl (fun bs t => if t.url = "" then bs else addToBucket bs t) bs) u =
        findBucket bs u ++ l.filter (fun t => t.url == u) := by
  induction l with
  | nil => intro bs u _; simp
  | cons t l ih =>
    intro bs u hu
    rw [List.foldl_cons, List.filter_cons]
    by_cases ht : t.url = ""
    · have hb : (t.url == u) = false := by
        simpa using (show ¬(t.url = u) from fun h => hu (by rw [← h]; exact ht))
      rw [if_pos ht, hb]
      simpa using ih bs u hu
    · rw [if_neg ht]
      by_cases htu : t.url = u
      · have hb : (t.url == u) = true := by simpa using htu
        rw [hb, ih (addToBucket bs t) u hu, findBucket_addToBucket,
          if_pos htu.symm]
        simp
      · have hb : (t.url == u) = false := by simpa using htu
        rw [hb, ih (addToBucket bs t) u hu, findBucket_addToBucket,
          if_neg (fun h => htu h.symm)]
        simp

lemma findBucket_byUrl (tabs : List Tab) (u : String) (hu : u ≠ "") :
    findBucket (byUrl tabs) u = urlGroup tabs u := by
  have h := findBucket_byUrl_aux tabs [] u hu
  simpa [byUrl, urlGroup, findBucket] using h

lemma keys_addToBucket (bs : List (String × List Tab)) (t : Tab) :
    (addToBucket bs t).map Prod.fst =
      if t.url ∈ bs.map Prod.fst then bs.map Prod.fst else bs.map Prod.fst ++ [t.url] := by
  induction bs with
  | nil => simp [addToBucket]
  | cons kv bs ih =>
    obtain ⟨k, g⟩ := kv
    by_cases hk : k = t.url
    · simp [addToBucket, hk]
    · have hne : ¬(t.url = k) := fun h => hk h.symm
      simp only [addToBucket, if_neg hk, List.map_cons, ih, List.mem_cons, hne, false_or]
      by_cases hmem : t.url ∈ bs.map Prod.fst
      · rw [if_pos hmem, if_pos hmem]
      · rw [if_neg hmem, if_neg hmem, List.cons_append]

lemma mem_addToBucket {bs : List (String × List Tab)} {t : Tab}
    {kv : String × List Tab} (h : kv ∈ addToBucket bs t) :
    kv.1 = t.url ∨ kv ∈ bs := by
  induction bs with
  | nil =>
    simp only [addToBucket, List.mem_singleton] at h
    exact Or.inl (by rw [h])
  | cons kv' bs ih =>
    obtain ⟨k, g⟩ := kv'
    by_cases hk : k = t.url
    · simp only [addToBucket, if_pos hk, List.mem_cons] at h
      rcases h with h | h
      · exact Or.inl (by rw [h, ← hk])
      · exact Or.inr (List.mem_cons_of_mem _ h)
    · simp only [addToBucket, if_neg hk, List.mem_cons] at h
      rcases h with h | h
      · exact Or.inr (by rw [h]; exact List.mem_cons_self _ _)
      · rcases ih h with h | h
        · exact Or.inl h
        · exact Or.inr (List.mem_cons_of_mem _ h)

lemma nodup_keys_byUrl (tabs : List Tab) : ((byUrl tabs).map Prod.fst).Nodup := by
  refine foldlPreserves (fun bs => (bs.map Prod.fst).Nodup)
    (fun bs t => if t.url = "" then bs else addToBucket bs t) tabs [] ?_ (by simp)
  intro bs t _ hb
  show ((if t.url = "" then bs else addToBucket bs t).map Prod.fst).Nodup
  by_cases ht : t.url = ""
  · rw [if_pos ht]; exact hb
  · rw [if_neg ht, keys_addToBucket]
    by_cases hmem : t.url ∈ bs.map Prod.fst
    · rw [if_pos hmem]; exact hb
    · rw [if_neg hmem]
      exact List.Nodup.append hb (List.nodup_singleton _) (by simpa using hmem)

lemma keys_ne_empty_byUrl (tabs : List Tab) : ∀ kv ∈ byUrl tabs, kv.1 ≠ "" := by
  refine foldlPreserves (fun bs => ∀ kv ∈ bs, kv.1 ≠ "")
    (fun bs t => if t.url = "" then bs else addToBucket bs t) tabs [] ?_ (by simp)
  intro bs t _ hb
  show ∀ kv ∈ (if t.url = "" then bs else addToBucket bs t), kv.1 ≠ ""
  by_cases ht : t.url = ""
  · rw [if_pos ht]; exact hb
  · rw [if_neg ht]
    intro kv hkv
    rcases mem_addToBucket hkv with h | h
    · rw [h]; exact ht
    · exact hb kv h

lemma findBucket_of_mem {bs : List (String × List Tab)} {u : String} {g : List Tab}
    (hnd : (bs.map Prod.fst).Nodup) (h : (u, g) ∈ bs) : findBucket bs u = g := by
  induction bs with
  | nil => cases h
  | cons kv bs ih =>
    obtain ⟨k, g'⟩ := kv
    simp only [List.map_cons, List.nodup_cons] at hnd
    rcases List.mem_cons.mp h with h | h
    · have hk : u = k := congrArg Prod.fst h
      have hg : g = g' := congrArg Prod.snd h
      subst hk
      subst hg
      simp [findBucket]
    · have hu : u ∈ bs.map Prod.fst := List.mem_map_of_mem Prod.fst h
      have hk : ¬(k = u) := fun hku => hnd.1 (by rw [hku]; exact hu)
      simp only [findBucket, if_neg hk]
      exact ih hnd.2 h

lemma findBucket_ne_nil_mem {bs : List (String × List Tab)} {u : String}
    (h : findBucket bs u ≠ []) : (u, findBucket bs u) ∈ bs := by
  induction bs with
  | nil => simp [findBucket] at h
  | cons kv bs ih =>
    obtain ⟨k, g⟩ := kv
    by_cases hk : k = u
    · subst hk
      simp [findBucket]
    · simp only [findBucket, if_neg hk] at h ⊢
      exact List.mem_cons_of_mem _ (ih h)

lemma bucket_eq_urlGroup (tabs : List Tab) :
    ∀ kv ∈ byUrl tabs, kv.1 ≠ "" ∧ kv.2 = urlGroup tabs kv.1 := by
  intro kv hkv
  obtain ⟨u, g⟩ := kv
  have hu : u ≠ "" := keys_ne_empty_byUrl tabs _ hkv
  refine ⟨hu, ?_⟩
  have h := findBucket_of_mem (nodup_keys_byUrl tabs) hkv
  rw [← h, findBucket_byUrl tabs u hu]

lemma urlGroup_mem_byUrl {tabs : List Tab} {u : String} (hu : u ≠ "")
    (hne : urlGroup tabs u ≠ []) : (u, urlGroup tabs u) ∈ byUrl tabs := by
  have h := findBucket_byUrl tabs u hu
  have h2 := @findBucket_ne_nil_mem (byUrl tabs) u (by rw [h]; exact hne)
  rwa [h] at h2

/-! ## The duplicate pass -/

lemma foldl_setCand_append :
    ∀ (l : List CleanupCandidate) (m : List CleanupCandidate),
      (∀ c ∈ l, c.tabId ∉ m.map CleanupCandidate.tabId) →
      ((l.map CleanupCandidate.tabId).Nodup) →
      l.foldl setCand m = m ++ l := by
  intro l
  induction l with
  | nil => intro m _ _; simp
  | cons c l ih =>
    intro m hdis hnd
    simp only [List.map_cons, List.nodup_cons] at hnd
    rw [List.foldl_cons, setCand_of_not_mem (hdis c (List.mem_cons_self c l))]
    rw [ih (m ++ [c]) ?_ hnd.2]
    · simp
    · intro c' hc'
      simp only [List.map_append, List.mem_append, List.map_cons]
      rintro (h | h)
      · exact hdis c' (List.mem_cons_of_mem _ hc') h
      · simp only [List.map_nil, List.mem_singleton] at h
        exact hnd.1 (h ▸ List.mem_map_of_mem CleanupCandidate.tabId hc')

lemma keys_map_mkDup (kid : Nat) (l : List Tab) :
    ((l.map (mkDupCand kid)).map CleanupCandidate.tabId) = l.map Tab.id := by
  simp [mkDupCand, List.map_map, Function.comp]

lemma dupPassGroup_small {g : List Tab} (h : g.length < 2) (m : List CleanupCandidate) :
    dupPassGroup m g = m := by
  rw [dupPassGroup, if_pos h]

lemma dupContrib_small {g : List Tab} (h : g.length < 2) : dupContrib g = [] := by
  rw [dupContrib, if_pos h]

lemma sort_cons_of_two {g : List Tab} (h : 2 ≤ g.length) :
    ∃ keeper rest, List.insertionSort dupLE g = keeper :: rest := by
  cases hs : List.insertionSort dupLE g with
  | nil =>
    have hlen := List.length_insertionSort dupLE g
    rw [hs] at hlen
    simp at hlen
    omega
  | cons keeper rest => exact ⟨keeper, rest, rfl⟩

lemma dupContrib_eq {g : List Tab} {keeper : Tab} {rest : List Tab} (h : 2 ≤ g.length)
    (hs : List.insertionSort dupLE g = keeper :: rest) :
    dupContrib g = rest.map (mkDupCand keeper.id) := by
  rw [dupContrib, if_neg (by omega), hs]

lemma dupPassGroup_eq {g : List Tab} {keeper : Tab} {rest : List Tab}
    {m : List CleanupCandidate} (h : 2 ≤ g.length)
    (hs : List.insertionSort dupLE g = keeper :: rest)
    (hdis : ∀ t ∈ rest, t.id ∉ m.map CleanupCandidate.tabId)
    (hnd : (rest.map Tab.id).Nodup) :
    dupPassGroup m g = m ++ rest.map (mkDupCand keeper.id) := by
  rw [dupPassGroup, if_neg (by omega), hs]
  show List.foldl (fun acc t => setCand acc (mkDupCand keeper.id t)) m rest = _
  rw [← List.foldl_map (mkDupCand keeper.id) setCand]
  refine foldl_setCand_append _ m ?_ ?_
  · intro c hc
    obtain ⟨t, ht, rfl⟩ := List.mem_map.mp hc
    exact hdis t ht
  · rw [keys_map_mkDup]
    exact hnd

lemma nodup_keys_dupPassGroup {m : List CleanupCandidate} (g : List Tab)
    (h : (m.map CleanupCandidate.tabId).Nodup) :
    ((dupPassGroup m g).map CleanupCandidate.tabId).Nodup := by
  rw [dupPassGroup]
  by_cases hlen : g.length < 2
  · rw [if_pos hlen]; exact h
  · rw [if_neg hlen]
    cases List.insertionSort dupLE g with
    | nil => exact h
    | cons keeper rest =>
      refine foldlPreserves (fun m' => (m'.map CleanupCandidate.tabId).Nodup)
        _ rest m ?_ h
      intro m' t _ hm'
      exact nodup_keys_setCand _ hm'

lemma nodup_keys_dupPass (tabs : List Tab) :
    ((dupPass tabs).map CleanupCandidate.tabId).Nodup := by
  refine foldlPreserves (fun m => (m.map CleanupCandidate.tabId).Nodup)
    (fun m b => dupPassGroup m b.2) (byUrl tabs) [] ?_ (by simp)
  intro m b _ hm
  exact nodup_keys_dupPassGroup _ hm

lemma keys_dupPassGroup_sub {m : List CleanupCandidate} {g : List Tab} :
    ∀ k ∈ (dupPassGroup m g).map CleanupCandidate.tabId,
      k ∈ m.map CleanupCandidate.tabId ∨ k ∈ g.map Tab.id := by
  rw [dupPassGroup]
  by_cases hlen : g.length < 2
  · rw [if_pos hlen]; exact fun k hk => Or.inl hk
  · rw [if_neg hlen]
    cases hs : List.insertionSort dupLE g with
    | nil => exact fun k hk => Or.inl hk
    | cons keeper rest =>
      refine foldlPreserves
        (fun m' => ∀ k ∈ m'.map CleanupCandidate.tabId,
          k ∈ m.map CleanupCandidate.tabId ∨ k ∈ g.map Tab.id)
        _ rest m ?_ (fun k hk => Or.inl hk)
      intro m' t ht hm' k hk
      rw [keys_setCand] at hk
      by_cases hmem :
          (mkDupCand keeper.id t).tabId ∈ m'.map CleanupCandidate.tabId
      · rw [if_pos hmem] at hk
        exact hm' k hk
      · rw [if_neg hmem] at hk
        rcases List.mem_append.mp hk with hk | hk
        · exact hm' k hk
        · simp only [List.mem_singleton] at hk
          subst hk
          refine Or.inr (List.mem_map_of_mem Tab.id ?_)
          have : t ∈ List.insertionSort dupLE g := by
            rw [hs]; exact List.mem_cons_of_mem _ ht
          exact (List.mem_insertionSort dupLE).mp this

lemma mem_dupPassGroup_of_mem {m : List CleanupCandidate} {g : List Tab}
    {c : CleanupCandidate} (hc : c ∈ m)
    (hg : c.tabId ∉ g.map Tab.id) : c ∈ dupPassGroup m g := by
  rw [dupPassGroup]
  by_cases hlen : g.length < 2
  · rw [if_pos hlen]; exact hc
  · rw [if_neg hlen]
    cases hs : List.insertionSort dupLE g with
    | nil => exact hc
    | cons keeper rest =>
      refine foldlPreserves (fun m' => c ∈ m') _ rest m ?_ hc
      intro m' t ht hm'
      refine mem_setCand_of_ne hm' ?_
      intro hid
      refine hg ?_
      rw [← hid]
      refine List.mem_map_of_mem Tab.id ?_
      have : t ∈ List.insertionSort dupLE g := by
        rw [hs]; exact List.mem_cons_of_mem _ ht
      exact (List.mem_insertionSort dupLE).mp this

lemma mem_dupPassGroup {m : List CleanupCandidate} {g : List Tab}
    {c : CleanupCandidate} (hc : c ∈ dupPassGroup m g) :
    c ∈ m ∨ ∃ keeper rest, List.insertionSort dupLE g = keeper :: rest ∧
      ∃ t ∈ rest, c = mkDupCand keeper.id t := by
  rw [dupPassGroup] at hc
  by_cases hlen : g.length < 2
  · rw [if_pos hlen] at hc; exact Or.inl hc
  · rw [if_neg hlen] at hc
    cases hs : List.insertionSort dupLE g with
    | nil => rw [hs] at hc; exact Or.inl hc
    | cons keeper rest =>
      rw [hs] at hc
      have key := foldlPreserves
        (fun m' => c ∈ m' →
          c ∈ m ∨ ∃ t ∈ rest, c = mkDupCand keeper.id t)
        (fun acc t => setCand acc (mkDupCand keeper.id t)) rest m
        ?_ (fun h => Or.inl h)
      · rcases key hc with h | h
        · exact Or.inl h
        · exact Or.inr ⟨keeper, rest, rfl, h⟩
      · intro m' t ht hm' hc'
        rcases mem_setCand hc' with hc' | hc'
        · exact Or.inr ⟨t, ht, hc'⟩
        · exact hm' hc'

lemma mem_sorted_tail_mem {g : List Tab} {keeper : Tab} {rest : List Tab}
    (hs : List.insertionSort dupLE g = keeper :: rest) {t : Tab} (ht : t ∈ rest) :
    t ∈ g := by
  have h : t ∈ List.insertionSort dupLE g := by
    rw [hs]; exact List.mem_cons_of_mem _ ht
  exact (List.mem_insertionSort dupLE).mp h

lemma dupPass_shape (tabs : List Tab) :
    ∀ c ∈ dupPass tabs, c.reason = .duplicate ∧
      (∃ kid, c.duplicateOfTabId = some kid) ∧
      ∃ t ∈ tabs, t.url ≠ "" ∧ c.tabId = t.id ∧ c.lastAccessed = laD t := by
  refine foldlPreserves
    (fun m => ∀ c ∈ m, c.reason = .duplicate ∧
      (∃ kid, c.duplicateOfTabId = some kid) ∧
      ∃ t ∈ tabs, t.url ≠ "" ∧ c.tabId = t.id ∧ c.lastAccessed = laD t)
    (fun m b => dupPassGroup m b.2) (byUrl tabs) [] ?_ (by simp)
  intro m b hb hm c hc
  obtain ⟨hbne, hbeq⟩ := bucket_eq_urlGroup tabs b hb
  rcases mem_dupPassGroup hc with hc | ⟨keeper, rest, hs, t, ht, rfl⟩
  · exact hm c hc
  · have hmem : t ∈ b.2 := mem_sorted_tail_mem hs ht
    rw [hbeq] at hmem
    have hmf := List.mem_filter.mp hmem
    have hurl : t.url = b.1 := by simpa using hmf.2
    exact ⟨rfl, ⟨keeper.id, rfl⟩, t, hmf.1, by rw [hurl]; exact hbne, rfl, rfl⟩

/-! ## The staleness pass -/

lemma nodup_keys_stalePassStep (now : Int) {m : List CleanupCandidate} (t : Tab)
    (h : (m.map CleanupCandidate.tabId).Nodup) :
    ((stalePassStep now m t).map CleanupCandidate.tabId).Nodup := by
  rw [stalePassStep]
  by_cases h1 : idleOf now t < STALE_THRESHOLD_MS
  · rw [if_pos h1]; exact h
  · rw [if_neg h1]
    by_cases h2 : hasCand m t.id = true
    · rw [if_pos h2, keys_upgradeCand]; exact h
    · rw [if_neg h2, List.map_append]
      refine List.Nodup.append h (by simp) ?_
      intro k hk hk'
      simp only [mkStaleCand, List.map_cons, List.map_nil, List.mem_singleton] at hk'
      subst hk'
      exact h2 ((hasCand_iff m t.id).mpr hk)

lemma nodup_keys_stalePass (now : Int) (tabs : List Tab) {m : List CleanupCandidate}
    (h : (m.map CleanupCandidate.tabId).Nodup) :
    ((stalePass now tabs m).map CleanupCandidate.tabId).Nodup := by
  refine foldlPreserves (fun m => (m.map CleanupCandidate.tabId).Nodup)
    (stalePassStep now) tabs m ?_ h
  intro m' t _ hm'
  exact nodup_keys_stalePassStep now t hm'

lemma candsFor_stalePassStep_ne (now : Int) {m : List CleanupCandidate} {t : Tab}
    {id : Nat} (h : t.id ≠ id) :
    candsFor (stalePassStep now m t) id = candsFor m id := by
  rw [stalePassStep]
  by_cases h1 : idleOf now t < STALE_THRESHOLD_MS
  · rw [if_pos h1]
  · rw [if_neg h1]
    by_cases h2 : hasCand m t.id = true
    · rw [if_pos h2, candsFor_upgradeCand_ne m h]
    · rw [if_neg h2, candsFor_append]
      have : candsFor [mkStaleCand t] id = [] := by
        simp [candsFor, mkStaleCand, h]
      rw [this, List.append_nil]

lemma candsFor_stalePass_ne (now : Int) {l : List Tab} {id : Nat}
    (h : ∀ t ∈ l, t.id ≠ id) :
    ∀ m, candsFor (stalePass now l m) id = candsFor m id := by
  induction l with
  | nil => intro m; rfl
  | cons t l ih =>
    intro m
    rw [stalePass, List.foldl_cons]
    have h1 := ih (fun t' ht' => h t' (List.mem_cons_of_mem _ ht')) (stalePassStep now m t)
    rw [stalePass] at h1
    rw [h1, candsFor_stalePassStep_ne now (h t (List.mem_cons_self t l))]

lemma candsFor_mkStale_self (t : Tab) :
    candsFor [mkStaleCand t] t.id = [mkStaleCand t] := by
  simp [candsFor, mkStaleCand]

lemma candsFor_stalePass_eq (now : Int) {tabs : List Tab} {t : Tab}
    (m : List CleanupCandidate) (hmem : t ∈ tabs) (hids : (tabs.map Tab.id).Nodup) :
    candsFor (stalePass now tabs m) t.id =
      if idleOf now t < STALE_THRESHOLD_MS then candsFor m t.id
      else if candsFor m t.id = [] then [mkStaleCand t]
      else (candsFor m t.id).map (fun c => { c with reason := .staleDuplicate }) := by
  obtain ⟨pre, post, rfl⟩ := List.append_of_mem hmem
  have hnd : t.id ∉ (pre.map Tab.id ++ post.map Tab.id) := by
    rw [List.map_append, List.map_cons] at hids
    have := List.nodup_middle.mp hids
    exact (List.nodup_cons.mp this).1
  have hpre : ∀ u ∈ pre, u.id ≠ t.id := by
    intro u hu he
    exact hnd (List.mem_append.mpr (Or.inl (he ▸ List.mem_map_of_mem Tab.id hu)))
  have hpost : ∀ u ∈ post, u.id ≠ t.id := by
    intro u hu he
    exact hnd (List.mem_append.mpr (Or.inr (he ▸ List.mem_map_of_mem Tab.id hu)))
  rw [stalePass, List.foldl_append, List.foldl_cons]
  have hframe2 := candsFor_stalePass_ne now hpost
    (stalePassStep now (List.foldl (stalePassStep now) m pre) t)
  rw [stalePass] at hframe2
  rw [hframe2]
  have hframe1 : candsFor (List.foldl (stalePassStep now) m pre) t.id = candsFor m t.id := by
    have := candsFor_stalePass_ne now hpre m
    rwa [stalePass] at this
  rw [stalePassStep]
  by_cases h1 : idleOf now t < STALE_THRESHOLD_MS
  · rw [if_pos h1, hframe1, if_pos h1]
  · rw [if_neg h1, if_neg h1]
    by_cases h2 : hasCand (List.foldl (stalePassStep now) m pre) t.id = true
    · rw [if_pos h2, candsFor_upgradeCand_self, hframe1]
      have hne : ¬(candsFor m t.id = []) := by
        rw [← hframe1]
        intro he
        rw [candsFor_eq_nil_iff] at he
        exact he ((hasCand_iff _ t.id).mp h2)
      rw [if_neg hne]
    · rw [if_neg h2, candsFor_append, hframe1, candsFor_mkStale_self]
      have he : candsFor m t.id = [] := by
        rw [← hframe1, candsFor_eq_nil_iff]
        intro hmem'
        exact h2 ((hasCand_iff _ t.id).mpr hmem')
      rw [he, if_pos rfl, List.nil_append]

lemma stalePass_fresh (now : Int) (tabs : List Tab) (m : List CleanupCandidate)
    (h : ∀ t ∈ tabs, idleOf now t < STALE_THRESHOLD_MS) :
    stalePass now tabs m = m := by
  refine foldlSkip (stalePassStep now) tabs ?_ m
  intro t ht m'
  rw [stalePassStep, if_pos (h t ht)]

lemma mem_upgradeCand {m : List CleanupCandidate} {id : Nat} {c : CleanupCandidate}
    (h : c ∈ upgradeCand m id) :
    ∃ d ∈ m, c.tabId = d.tabId ∧ c.lastAccessed = d.lastAccessed := by
  obtain ⟨d, hd, hc⟩ := List.mem_map.mp h
  by_cases hdi : d.tabId = id
  · rw [if_pos hdi] at hc
    exact ⟨d, hd, by rw [← hc], by rw [← hc]⟩
  · rw [if_neg hdi] at hc
    exact ⟨d, hd, by rw [← hc], by rw [← hc]⟩

lemma stalePass_from_tab (now : Int) (tabs : List Tab) (m : List CleanupCandidate)
    (hm : ∀ c ∈ m, ∃ u ∈ tabs, c.tabId = u.id ∧ c.lastAccessed = laD u) :
    ∀ c ∈ stalePass now tabs m, ∃ u ∈ tabs, c.tabId = u.id ∧ c.lastAccessed = laD u := by
  refine foldlPreserves
    (fun m' => ∀ c ∈ m', ∃ u ∈ tabs, c.tabId = u.id ∧ c.lastAccessed = laD u)
    (stalePassStep now) tabs m ?_ hm
  intro m' t ht hm' c hc
  rw [stalePassStep] at hc
  by_cases h1 : idleOf now t < STALE_THRESHOLD_MS
  · rw [if_pos h1] at hc; exact hm' c hc
  · rw [if_neg h1] at hc
    by_cases h2 : hasCand m' t.id = true
    · rw [if_pos h2] at hc
      obtain ⟨d, hd, h3, h4⟩ := mem_upgradeCand hc
      obtain ⟨u, hu, h5, h6⟩ := hm' d hd
      exact ⟨u, hu, h3.trans h5, h4.trans h6⟩
    · rw [if_neg h2] at hc
      rcases List.mem_append.mp hc with hc | hc
      · exact hm' c hc
      · simp only [List.mem_singleton] at hc
        subst hc
        exact ⟨t, ht, rfl, rfl⟩

/-! ## Transport through the final sort -/

lemma detect_perm (now : Int) (tabs : List Tab) :
    List.Perm (detectCleanupCandidates now tabs) (stalePass now tabs (dupPass tabs)) :=
  List.perm_insertionSort candLE _

lemma mem_detect_iff (now : Int) (tabs : List Tab) (c : CleanupCandidate) :
    c ∈ detectCleanupCandidates now tabs ↔ c ∈ stalePass now tabs (dupPass tabs) :=
  List.mem_insertionSort candLE

lemma candsFor_detect (now : Int) (tabs : List Tab) (id : Nat) :
    List.Perm (candsFor (detectCleanupCandidates now tabs) id)
      (candsFor (stalePass now tabs (dupPass tabs)) id) :=
  (detect_perm now tabs).filter _

lemma candsFor_detect_singleton {now : Int} {tabs : List Tab} {id : Nat}
    {r : CleanupCandidate}
    (h : candsFor (stalePass now tabs (dupPass tabs)) id = [r]) :
    candsFor (detectCleanupCandidates now tabs) id = [r] := by
  have hp := candsFor_detect now tabs id
  rw [h] at hp
  exact List.perm_singleton.mp hp

lemma nodup_keys_detect (now : Int) (tabs : List Tab) :
    ((detectCleanupCandidates now tabs).map CleanupCandidate.tabId).Nodup := by
  have hp := (detect_perm now tabs).map CleanupCandidate.tabId
  rw [hp.nodup_iff]
  exact nodup_keys_stalePass now tabs (nodup_keys_dupPass tabs)

/-! ## Claim theorems for the cleanup detector -/

/-- C9. For every input tab list, the candidate list returned by
`detectCleanupCandidates` is sorted non-decreasing by the candidates'
`lastAccessed` field (oldest first). The output is deterministic for a
fixed input because the embedding is a pure function of `now` and the tab
list and the final sort is the stable insertion sort. -/
theorem detect_sorted_nondecreasing (now : Int) (tabs : List Tab) :
    List.Pairwise (fun a b => a.lastAccessed ≤ b.lastAccessed)
      (detectCleanupCandidates now tabs) := by
  have h := List.sorted_insertionSort candLE (stalePass now tabs (dupPass tabs))
  exact h

/-- C2. The output of `detectCleanupCandidates` has at most one candidate
record per `tabId` (its `tabId` projections are pairwise distinct); and a
tab that is both stale and a non-keeper duplicate is represented by
exactly one record, whose reason is the combined `'stale+duplicate'` and
whose `duplicateOfTabId` is still the one the duplicate pass recorded
(which is never `none`). -/
theorem detect_one_record_per_tab (now : Int) (tabs : List Tab) :
    ((detectCleanupCandidates now tabs).map CleanupCandidate.tabId).Nodup ∧
    (∀ t ∈ tabs, (tabs.map Tab.id).Nodup →
      STALE_THRESHOLD_MS ≤ idleOf now t →
      ∀ r ∈ dupPass tabs, r.tabId = t.id →
        candsFor (detectCleanupCandidates now tabs) t.id =
          [⟨t.id, CleanupReason.staleDuplicate, r.lastAccessed, r.duplicateOfTabId⟩] ∧
        r.duplicateOfTabId ≠ none) := by
  refine ⟨nodup_keys_detect now tabs, ?_⟩
  intro t ht hids hstale r hr hrid
  have h0 : candsFor (dupPass tabs) t.id = [r] := by
    rw [← hrid]
    exact candsFor_of_mem_nodup hr (nodup_keys_dupPass tabs)
  have h1 := candsFor_stalePass_eq now (dupPass tabs) ht hids
  rw [if_neg (not_lt.mpr hstale), h0, if_neg (by simp)] at h1
  constructor
  · refine candsFor_detect_singleton ?_
    rw [h1]
    obtain ⟨rid, rr, rla, rdup⟩ := r
    simp only [List.map_cons, List.map_nil]
    have : rid = t.id := hrid
    rw [this]
  · obtain ⟨_, ⟨kid, hkid⟩, _⟩ := dupPass_shape tabs r hr
    rw [hkid]
    intro h
    cases h

/-- C3. A tab is flagged stale (a record with reason `'stale'` or
`'stale+duplicate'`) exactly when `now - (lastAccessed ?? now)` is at or
beyond the fixed 2-hour threshold; a tab with missing `lastAccessed` is
treated as idle 0 and so never flagged stale; and a stale tab that the
duplicate pass did not record yields exactly the record
`{tabId, reason: 'stale', lastAccessed ?? 0, no duplicateOfTabId}`. -/
theorem detect_stale_iff (now : Int) (tabs : List Tab) (t : Tab)
    (hids : (tabs.map Tab.id).Nodup) (ht : t ∈ tabs) :
    ((∃ c ∈ detectCleanupCandidates now tabs, c.tabId = t.id ∧
        (c.reason = CleanupReason.stale ∨ c.reason = CleanupReason.staleDuplicate)) ↔
      STALE_THRESHOLD_MS ≤ idleOf now t) ∧
    (t.lastAccessed = none →
      ∀ c ∈ detectCleanupCandidates now tabs, c.tabId = t.id →
        c.reason = CleanupReason.duplicate) ∧
    ((∀ r ∈ dupPass tabs, r.tabId ≠ t.id) → STALE_THRESHOLD_MS ≤ idleOf now t →
      candsFor (detectCleanupCandidates now tabs) t.id = [mkStaleCand t]) := by
  have h1 := candsFor_stalePass_eq now (dupPass tabs) ht hids
  have hfreshReason : idleOf now t < STALE_THRESHOLD_MS →
      ∀ c ∈ detectCleanupCandidates now tabs, c.tabId = t.id →
        c.reason = CleanupReason.duplicate := by
    intro hfresh c hc hcid
    rw [if_pos hfresh] at h1
    have hcf : c ∈ candsFor (detectCleanupCandidates now tabs) t.id := by
      rw [← hcid]
      exact mem_candsFor_of_mem hc
    have hcs : c ∈ candsFor (stalePass now tabs (dupPass tabs)) t.id :=
      (candsFor_detect now tabs t.id).mem_iff.mp hcf
    rw [h1] at hcs
    have := (mem_of_mem_candsFor hcs).1
    exact (dupPass_shape tabs c this).1
  refine ⟨⟨?_, ?_⟩, ?_, ?_⟩
  · rintro ⟨c, hc, hcid, hcr⟩
    by_contra hidle
    have hfresh : idleOf now t < STALE_THRESHOLD_MS := not_le.mp hidle
    have := hfreshReason hfresh c hc hcid
    rcases hcr with h | h <;> rw [this] at h <;> cases h
  · intro hstale
    rw [if_neg (not_lt.mpr hstale)] at h1
    by_cases h0 : candsFor (dupPass tabs) t.id = []
    · rw [if_pos h0] at h1
      have hdet := candsFor_detect_singleton h1
      refine ⟨mkStaleCand t, ?_, rfl, Or.inl rfl⟩
      have : mkStaleCand t ∈ candsFor (detectCleanupCandidates now tabs) t.id := by
        rw [hdet]; exact List.mem_singleton.mpr rfl
      exact (mem_of_mem_candsFor this).1
    · rw [if_neg h0] at h1
      obtain ⟨d, hd⟩ := List.exists_mem_of_ne_nil _ h0
      have hdm : ({ d with reason := CleanupReason.staleDuplicate } : CleanupCandidate) ∈
          candsFor (stalePass now tabs (dupPass tabs)) t.id := by
        rw [h1]
        exact List.mem_map_of_mem _ hd
      have hdd := mem_of_mem_candsFor hdm
      exact ⟨_, (mem_detect_iff now tabs _).mpr hdd.1, hdd.2, Or.inr rfl⟩
  · intro hla c hc hcid
    refine hfreshReason ?_ c hc hcid
    rw [idleOf, hla]
    simp [STALE_THRESHOLD_MS]
  · intro hnd hstale
    have h0 : candsFor (dupPass tabs) t.id = [] := by
      rw [candsFor_eq_nil_iff]
      intro hmem
      obtain ⟨r, hr, hrid⟩ := List.mem_map.mp hmem
      exact hnd r hr hrid
    rw [if_neg (not_lt.mpr hstale), if_pos h0] at h1
    exact candsFor_detect_singleton h1

lemma length_le_one_of_all_eq {α : Type} {l : List α} (hnd : l.Nodup)
    (h : ∀ a ∈ l, ∀ b ∈ l, a = b) : l.length ≤ 1 := by
  match l with
  | [] => simp
  | [x] => simp
  | x :: y :: l =>
    exfalso
    have hxy : x = y := h x (List.mem_cons_self _ _)
      y (List.mem_cons_of_mem _ (List.mem_cons_self _ _))
    have := (List.nodup_cons.mp hnd).1
    exact this (hxy ▸ List.mem_cons_self y l)

/-- C1 (amended with the freshness proviso). For a tab list with pairwise
distinct ids and non-empty URLs (the Tab data-model invariants), every tab
idle strictly below the stale threshold, and exactly one URL `u` shared by
`N ≥ 2` tabs (every other URL held by at most one tab),
`detectCleanupCandidates` returns exactly `N - 1` candidates, all with
reason `'duplicate'`, all with the same `duplicateOfTabId` — the id of the
keeper, the shared-URL tab with the greatest `lastAccessed ?? 0`, ties
broken by greatest id — and the keeper itself is never among them. -/
theorem detect_single_dup_group (now : Int) (tabs : List Tab) (u : String) (N : Nat)
    (hids : (tabs.map Tab.id).Nodup)
    (hurls : ∀ t ∈ tabs, t.url ≠ "")
    (hfresh : ∀ t ∈ tabs, idleOf now t < STALE_THRESHOLD_MS)
    (hN : (urlGroup tabs u).length = N)
    (h2 : 2 ≤ N)
    (huniq : ∀ a ∈ tabs, ∀ b ∈ tabs, a.url ≠ u → b.url = a.url → b = a) :
    ∃ keeper, keeper ∈ tabs ∧ keeper.url = u ∧
      (detectCleanupCandidates now tabs).length = N - 1 ∧
      (∀ c ∈ detectCleanupCandidates now tabs,
        c.reason = CleanupReason.duplicate ∧ c.duplicateOfTabId = some keeper.id ∧
        c.tabId ≠ keeper.id) ∧
      (∀ t ∈ tabs, t.url = u → t ≠ keeper →
        laD t < laD keeper ∨ (laD t = laD keeper ∧ t.id < keeper.id)) := by
  have htabsnd : tabs.Nodup := hids.of_map
  have hglen2 : 2 ≤ (urlGroup tabs u).length := by omega
  have hgne : urlGroup tabs u ≠ [] := by
    intro h
    rw [h] at hN
    simp at hN
    omega
  have hu : u ≠ "" := by
    obtain ⟨t0, ht0⟩ := List.exists_mem_of_ne_nil _ hgne
    have hm := List.mem_filter.mp ht0
    have hurl : t0.url = u := by simpa using hm.2
    rw [← hurl]
    exact hurls t0 hm.1
  have hmemB : (u, urlGroup tabs u) ∈ byUrl tabs := urlGroup_mem_byUrl hu hgne
  obtain ⟨l₁, l₂, hsplit⟩ := List.append_of_mem hmemB
  have hkeys := nodup_keys_byUrl tabs
  rw [hsplit, List.map_append, List.map_cons] at hkeys
  have hkmid := List.nodup_middle.mp hkeys
  have hunotin : u ∉ (l₁.map Prod.fst ++ l₂.map Prod.fst) := (List.nodup_cons.mp hkmid).1
  have hsmall : ∀ b ∈ l₁ ++ l₂, b.2.length < 2 := by
    intro b hb
    have hbmem : b ∈ byUrl tabs := by
      rw [hsplit]
      rcases List.mem_append.mp hb with h | h
      · exact List.mem_append.mpr (Or.inl h)
      · exact List.mem_append.mpr (Or.inr (List.mem_cons_of_mem _ h))
    obtain ⟨hbne, hbeq⟩ := bucket_eq_urlGroup tabs b hbmem
    have hbneu : b.1 ≠ u := by
      intro he
      refine hunotin ?_
      rw [← he]
      rcases List.mem_append.mp hb with h | h
      · exact List.mem_append.mpr (Or.inl (List.mem_map_of_mem Prod.fst h))
      · exact List.mem_append.mpr (Or.inr (List.mem_map_of_mem Prod.fst h))
    have hall : ∀ a ∈ urlGroup tabs b.1, ∀ c ∈ urlGroup tabs b.1, a = c := by
      intro a ha c hc
      have ha' := List.mem_filter.mp ha
      have hc' := List.mem_filter.mp hc
      have haurl : a.url = b.1 := by simpa using ha'.2
      have hcurl : c.url = b.1 := by simpa using hc'.2
      have hau : a.url ≠ u := by rw [haurl]; exact hbneu
      exact (huniq a ha'.1 c hc'.1 hau (hcurl.trans haurl.symm)).symm
    have hnodupB : (urlGroup tabs b.1).Nodup :=
      htabsnd.sublist (List.filter_sublist tabs)
    have hle := length_le_one_of_all_eq hnodupB hall
    rw [hbeq]
    omega
  have hdup : dupPass tabs = dupPassGroup [] (urlGroup tabs u) := by
    rw [dupPass, hsplit, List.foldl_append, List.foldl_cons]
    have hl1 : List.foldl (fun m b => dupPassGroup m b.2) [] l₁ = [] :=
      foldlSkip _ l₁
        (fun b hb m => dupPassGroup_small (hsmall b (List.mem_append.mpr (Or.inl hb))) m) []
    rw [hl1]
    exact foldlSkip _ l₂
      (fun b hb m => dupPassGroup_small (hsmall b (List.mem_append.mpr (Or.inr hb))) m) _
  obtain ⟨keeper, rest, hs⟩ := sort_cons_of_two hglen2
  have hgUids : ((urlGroup tabs u).map Tab.id).Nodup :=
    hids.sublist ((List.filter_sublist tabs).map Tab.id)
  have hsortperm : List.Perm (List.insertionSort dupLE (urlGroup tabs u)) (urlGroup tabs u) :=
    List.perm_insertionSort _ _
  have hsortids : ((keeper :: rest).map Tab.id).Nodup := by
    rw [← hs]
    exact ((hsortperm.map Tab.id).nodup_iff).mpr hgUids
  rw [List.map_cons, List.nodup_cons] at hsortids
  have hkeeperout : keeper.id ∉ rest.map Tab.id := hsortids.1
  have hrestids : (rest.map Tab.id).Nodup := hsortids.2
  have hD : dupPassGroup [] (urlGroup tabs u) = rest.map (mkDupCand keeper.id) := by
    have := @dupPassGroup_eq (urlGroup tabs u) keeper rest [] hglen2 hs (by simp) hrestids
    simpa using this
  have hSt : stalePass now tabs (dupPass tabs) = dupPass tabs :=
    stalePass_fresh now tabs _ hfresh
  have hperm : List.Perm (detectCleanupCandidates now tabs) (rest.map (mkDupCand keeper.id)) := by
    have h := detect_perm now tabs
    rwa [hSt, hdup, hD] at h
  have hkeepermem : keeper ∈ urlGroup tabs u := by
    have : keeper ∈ List.insertionSort dupLE (urlGroup tabs u) := by
      rw [hs]; exact List.mem_cons_self _ _
    exact (List.mem_insertionSort dupLE).mp this
  have hkeepertabs : keeper ∈ tabs := (List.mem_filter.mp hkeepermem).1
  have hkeeperurl : keeper.url = u := by
    simpa using (List.mem_filter.mp hkeepermem).2
  have hlenrest : rest.length = N - 1 := by
    have h := hsortperm.length_eq
    rw [hs] at h
    simp only [List.length_cons] at h
    omega
  refine ⟨keeper, hkeepertabs, hkeeperurl, ?_, ?_, ?_⟩
  · rw [hperm.length_eq, List.length_map, hlenrest]
  · intro c hc
    have hcm : c ∈ rest.map (mkDupCand keeper.id) := hperm.mem_iff.mp hc
    obtain ⟨t, ht, rfl⟩ := List.mem_map.mp hcm
    refine ⟨rfl, rfl, ?_⟩
    intro he
    exact hkeeperout (he ▸ List.mem_map_of_mem Tab.id ht)
  · intro t htmem hturl htne
    have htgU : t ∈ urlGroup tabs u :=
      List.mem_filter.mpr ⟨htmem, by simp [hturl]⟩
    have htsort : t ∈ keeper :: rest := by
      rw [← hs]
      exact (List.mem_insertionSort dupLE).mpr htgU
    have htrest : t ∈ rest := by
      rcases List.mem_cons.mp htsort with h | h
      · exact absurd h htne
      · exact h
    have hsorted := List.sorted_insertionSort dupLE (urlGroup tabs u)
    rw [hs] at hsorted
    have hdle : dupLE keeper t := List.rel_of_sorted_cons hsorted t htrest
    have hidne : t.id ≠ keeper.id := by
      intro he
      exact htne (List.inj_on_of_nodup_map hids htmem hkeepertabs he)
    rcases hdle with h | ⟨h1, h2⟩
    · exact Or.inl h
    · exact Or.inr ⟨h1, lt_of_le_of_ne h2 hidne⟩

lemma two_le_length_of_mem_ne {α : Type} {l : List α} {a b : α}
    (ha : a ∈ l) (hb : b ∈ l) (hne : a ≠ b) : 2 ≤ l.length := by
  obtain ⟨s, t, rfl⟩ := List.append_of_mem ha
  have hb' : b ∈ s ++ t := by
    rcases List.mem_append.mp hb with h | h
    · exact List.mem_append.mpr (Or.inl h)
    · rcases List.mem_cons.mp h with h | h
      · exact absurd h.symm hne
      · exact List.mem_append.mpr (Or.inr h)
  have : s ++ t ≠ [] := List.ne_nil_of_mem hb'
  have h1 : 1 ≤ (s ++ t).length := List.length_pos.mpr this
  simp only [List.length_append, List.length_cons] at h1 ⊢
  omega

lemma keys_foldl_dup_sub (bl : List (String × List Tab)) (m : List CleanupCandidate) :
    ∀ k ∈ (bl.foldl (fun m b => dupPassGroup m b.2) m).map CleanupCandidate.tabId,
      k ∈ m.map CleanupCandidate.tabId ∨ ∃ b ∈ bl, k ∈ b.2.map Tab.id := by
  induction bl generalizing m with
  | nil => intro k hk; exact Or.inl hk
  | cons b bl ih =>
    intro k hk
    rw [List.foldl_cons] at hk
    rcases ih (dupPassGroup m b.2) k hk with h | ⟨b', hb', hk'⟩
    · rcases keys_dupPassGroup_sub k h with h | h
      · exact Or.inl h
      · exact Or.inr ⟨b, List.mem_cons_self _ _, h⟩
    · exact Or.inr ⟨b', List.mem_cons_of_mem _ hb', hk'⟩

lemma id_not_in_other_bucket {tabs : List Tab} (hids : (tabs.map Tab.id).Nodup)
    {b : String × List Tab} (hb : b ∈ byUrl tabs) {s : Tab} (hs : s ∈ tabs)
    (hbneu : b.1 ≠ s.url) : s.id ∉ b.2.map Tab.id := by
  obtain ⟨_, hbeq⟩ := bucket_eq_urlGroup tabs b hb
  intro hmem
  obtain ⟨s', hs', hsid⟩ := List.mem_map.mp hmem
  rw [hbeq] at hs'
  have hm := List.mem_filter.mp hs'
  have hurl : s'.url = b.1 := by simpa using hm.2
  have : s' = s := List.inj_on_of_nodup_map hids hm.1 hs hsid
  exact hbneu (by rw [← hurl, this])

lemma detect_from_tab (now : Int) (tabs : List Tab) :
    ∀ c ∈ detectCleanupCandidates now tabs,
      ∃ u ∈ tabs, c.tabId = u.id ∧ c.lastAccessed = laD u := by
  intro c hc
  refine stalePass_from_tab now tabs (dupPass tabs) ?_ c
    ((mem_detect_iff now tabs c).mp hc)
  intro c' hc'
  obtain ⟨_, _, t', ht', _, h1, h2⟩ := dupPass_shape tabs c' hc'
  exact ⟨t', ht', h1, h2⟩

/-- C10 (amended). In the duplicate pass a missing `lastAccessed` ranks as
0 (the epoch): a tab with no timestamp loses keeper selection to any
same-URL tab with a recorded strictly positive timestamp (against a tab
recorded exactly at the epoch the greatest-id tie-break decides instead);
when flagged, its record's `lastAccessed` field is 0 and its reason stays
`'duplicate'` (idle time 0 keeps it out of the staleness pass), so when
every other tab has a positive ranking key the record sorts first in the
output; and a tab with an empty `url` is skipped by the duplicate pass
entirely, so any record it gets is a plain `'stale'` record with no
`duplicateOfTabId`. -/
theorem detect_missing_lastAccessed (now : Int) (tabs : List Tab) (t k : Tab) (v : Int)
    (hids : (tabs.map Tab.id).Nodup)
    (ht : t ∈ tabs) (hla : t.lastAccessed = none) (hturl : t.url ≠ "")
    (hk : k ∈ tabs) (hku : k.url = t.url) (hkla : k.lastAccessed = some v)
    (hv : 0 < v) :
    (∃ kid, kid ≠ t.id ∧
      (⟨t.id, CleanupReason.duplicate, 0, some kid⟩ : CleanupCandidate) ∈
        detectCleanupCandidates now tabs ∧
      ((∀ s ∈ tabs, s ≠ t → 0 < laD s) →
        (detectCleanupCandidates now tabs).head? =
          some ⟨t.id, CleanupReason.duplicate, 0, some kid⟩)) ∧
    (∀ t0 ∈ tabs, t0.url = "" → ∀ c ∈ detectCleanupCandidates now tabs,
      c.tabId = t0.id →
      c.reason = CleanupReason.stale ∧ c.duplicateOfTabId = none) := by
  have htabsnd : tabs.Nodup := hids.of_map
  have hlt : laD t = 0 := by rw [laD, hla]; rfl
  have hlk : laD k = v := by rw [laD, hkla]; rfl
  have htne : t ≠ k := by
    intro he
    rw [he, hkla] at hla
    cases hla
  have htG : t ∈ urlGroup tabs t.url := List.mem_filter.mpr ⟨ht, by simp⟩
  have hkG : k ∈ urlGroup tabs t.url := List.mem_filter.mpr ⟨hk, by simp [hku]⟩
  have hglen2 : 2 ≤ (urlGroup tabs t.url).length := two_le_length_of_mem_ne htG hkG htne
  have hgne : urlGroup tabs t.url ≠ [] := List.ne_nil_of_mem htG
  have hmemB : (t.url, urlGroup tabs t.url) ∈ byUrl tabs := urlGroup_mem_byUrl hturl hgne
  obtain ⟨l₁, l₂, hsplit⟩ := List.append_of_mem hmemB
  have hkeys := nodup_keys_byUrl tabs
  rw [hsplit, List.map_append, List.map_cons] at hkeys
  have hkmid := List.nodup_middle.mp hkeys
  have hunotin : t.url ∉ (l₁.map Prod.fst ++ l₂.map Prod.fst) := (List.nodup_cons.mp hkmid).1
  have hbneu : ∀ b ∈ l₁ ++ l₂, b.1 ≠ t.url := by
    intro b hb he
    refine hunotin ?_
    rw [← he]
    rcases List.mem_append.mp hb with h | h
    · exact List.mem_append.mpr (Or.inl (List.mem_map_of_mem Prod.fst h))
    · exact List.mem_append.mpr (Or.inr (List.mem_map_of_mem Prod.fst h))
  have hbmemByUrl : ∀ b ∈ l₁ ++ l₂, b ∈ byUrl tabs := by
    intro b hb
    rw [hsplit]
    rcases List.mem_append.mp hb with h | h
    · exact List.mem_append.mpr (Or.inl h)
    · exact List.mem_append.mpr (Or.inr (List.mem_cons_of_mem _ h))
  obtain ⟨keeper, rest, hs⟩ := sort_cons_of_two hglen2
  have hgUids : ((urlGroup tabs t.url).map Tab.id).Nodup :=
    hids.sublist ((List.filter_sublist tabs).map Tab.id)
  have hsortperm : List.Perm (List.insertionSort dupLE (urlGroup tabs t.url))
      (urlGroup tabs t.url) := List.perm_insertionSort _ _
  have hsortids : ((keeper :: rest).map Tab.id).Nodup := by
    rw [← hs]
    exact ((hsortperm.map Tab.id).nodup_iff).mpr hgUids
  rw [List.map_cons, List.nodup_cons] at hsortids
  have hrestids : (rest.map Tab.id).Nodup := hsortids.2
  have hkeepermem : keeper ∈ urlGroup tabs t.url := by
    have h : keeper ∈ List.insertionSort dupLE (urlGroup tabs t.url) := by
      rw [hs]; exact List.mem_cons_self _ _
    exact (List.mem_insertionSort dupLE).mp h
  have hkeepertabs : keeper ∈ tabs := (List.mem_filter.mp hkeepermem).1
  have hsorted := List.sorted_insertionSort dupLE (urlGroup tabs t.url)
  rw [hs] at hsorted
  have hkeepne : keeper ≠ t := by
    intro he
    have hkrest : k ∈ keeper :: rest := by
      rw [← hs]
      exact (List.mem_insertionSort dupLE).mpr hkG
    rcases List.mem_cons.mp hkrest with h | h
    · exact htne (he ▸ h.symm ▸ rfl)
    · have hdle : dupLE keeper k := List.rel_of_sorted_cons hsorted k h
      rw [he] at hdle
      rcases hdle with hd | ⟨hd, _⟩
      · rw [hlt, hlk] at hd; omega
      · rw [hlt, hlk] at hd; omega
  have htrest : t ∈ rest := by
    have h : t ∈ keeper :: rest := by
      rw [← hs]
      exact (List.mem_insertionSort dupLE).mpr htG
    rcases List.mem_cons.mp h with h | h
    · exact absurd h.symm hkeepne
    · exact h
  -- the record the duplicate pass writes for t
  have hm₁sub := keys_foldl_dup_sub l₁ []
  have hdisj : ∀ s ∈ rest, s.id ∉
      (l₁.foldl (fun m b => dupPassGroup m b.2) []).map CleanupCandidate.tabId := by
    intro s hsr hmem
    rcases hm₁sub s.id hmem with h | ⟨b, hb, h⟩
    · simp at h
    · have hsmemsort : s ∈ List.insertionSort dupLE (urlGroup tabs t.url) := by
        rw [hs]
        exact List.mem_cons_of_mem _ hsr
      have hsG : s ∈ urlGroup tabs t.url := (List.mem_insertionSort dupLE).mp hsmemsort
      have hstabs : s ∈ tabs := (List.mem_filter.mp hsG).1
      have hsurl : s.url = t.url := by simpa using (List.mem_filter.mp hsG).2
      have hbne : b.1 ≠ s.url := by
        rw [hsurl]
        exact hbneu b (List.mem_append.mpr (Or.inl hb))
      exact id_not_in_other_bucket hids (hbmemByUrl b (List.mem_append.mpr (Or.inl hb)))
        hstabs hbne h
  have hstep : dupPassGroup (l₁.foldl (fun m b => dupPassGroup m b.2) []) (urlGroup tabs t.url) =
      (l₁.foldl (fun m b => dupPassGroup m b.2) []) ++ rest.map (mkDupCand keeper.id) :=
    dupPassGroup_eq hglen2 hs hdisj hrestids
  have hrdup : mkDupCand keeper.id t ∈ dupPass tabs := by
    rw [dupPass, hsplit, List.foldl_append, List.foldl_cons]
    have hmem1 : mkDupCand keeper.id t ∈
        dupPassGroup (l₁.foldl (fun m b => dupPassGroup m b.2) []) (t.url, urlGroup tabs t.url).2 := by
      rw [hstep]
      exact List.mem_append.mpr (Or.inr (List.mem_map_of_mem _ htrest))
    refine foldlPreserves (fun m => mkDupCand keeper.id t ∈ m)
      (fun m b => dupPassGroup m b.2) l₂ _ ?_ hmem1
    intro m b hb hm
    refine mem_dupPassGroup_of_mem hm ?_
    show t.id ∉ b.2.map Tab.id
    exact id_not_in_other_bucket hids (hbmemByUrl b (List.mem_append.mpr (Or.inr hb))) ht
      ((hbneu b (List.mem_append.mpr (Or.inr hb))))
  have hfresh : idleOf now t < STALE_THRESHOLD_MS := by
    rw [idleOf, hla]
    simp [STALE_THRESHOLD_MS]
  have hcands0 : candsFor (dupPass tabs) t.id = [mkDupCand keeper.id t] :=
    candsFor_of_mem_nodup hrdup (nodup_keys_dupPass tabs)
  have h1 := candsFor_stalePass_eq now (dupPass tabs) ht hids
  rw [if_pos hfresh, hcands0] at h1
  have hdet : candsFor (detectCleanupCandidates now tabs) t.id = [mkDupCand keeper.id t] :=
    candsFor_detect_singleton h1
  have hrmem : mkDupCand keeper.id t ∈ detectCleanupCandidates now tabs := by
    have : mkDupCand keeper.id t ∈ candsFor (detectCleanupCandidates now tabs) t.id := by
      rw [hdet]; exact List.mem_singleton.mpr rfl
    exact (mem_of_mem_candsFor this).1
  have hkidne : keeper.id ≠ t.id := by
    intro he
    exact hkeepne (List.inj_on_of_nodup_map hids hkeepertabs ht he)
  have hreq : (mkDupCand keeper.id t : CleanupCandidate) =
      ⟨t.id, CleanupReason.duplicate, 0, some keeper.id⟩ := by
    rw [mkDupCand, hlt]
  constructor
  · refine ⟨keeper.id, hkidne, by rw [← hreq]; exact hrmem, ?_⟩
    intro hpos
    cases hdetect : detectCleanupCandidates now tabs with
    | nil => rw [hdetect] at hrmem; cases hrmem
    | cons c cs =>
      have hsortedout := detect_sorted_nondecreasing now tabs
      rw [hdetect] at hsortedout
      have hcle : ∀ b ∈ cs, c.lastAccessed ≤ b.lastAccessed := by
        intro b hb
        exact (List.pairwise_cons.mp hsortedout).1 b hb
      have hcr : c = mkDupCand keeper.id t := by
        by_contra hne
        have hcid : c.tabId ≠ t.id := by
          intro he
          have : c ∈ candsFor (detectCleanupCandidates now tabs) t.id := by
            rw [← he]
            refine mem_candsFor_of_mem ?_
            rw [hdetect]; exact List.mem_cons_self _ _
          rw [hdet] at this
          exact hne (List.mem_singleton.mp this)
        obtain ⟨s, hstabs, hsid, hsla⟩ := detect_from_tab now tabs c
          (by rw [hdetect]; exact List.mem_cons_self _ _)
        have hsne : s ≠ t := by
          intro he
          exact hcid (by rw [hsid, he])
        have hposc : 0 < c.lastAccessed := by rw [hsla]; exact hpos s hstabs hsne
        have hrin : mkDupCand keeper.id t ∈ c :: cs := by rw [← hdetect]; exact hrmem
        rcases List.mem_cons.mp hrin with h | h
        · exact hne h.symm
        · have := hcle _ h
          rw [mkDupCand, hlt] at this
          simp only at this
          omega
      rw [hcr, hreq]
      rfl
  · intro t0 ht0 ht0url c hc hcid
    have h0 : candsFor (dupPass tabs) t0.id = [] := by
      rw [candsFor_eq_nil_iff]
      intro hmem
      obtain ⟨r', hr', hr'id⟩ := List.mem_map.mp hmem
      obtain ⟨_, _, t', ht', ht'url, h1', _⟩ := dupPass_shape tabs r' hr'
      have : t' = t0 := List.inj_on_of_nodup_map hids ht' ht0 (by rw [← h1', hr'id])
      exact ht'url (by rw [this, ht0url])
    have h2 := candsFor_stalePass_eq now (dupPass tabs) ht0 hids
    rw [h0] at h2
    have hcf : c ∈ candsFor (stalePass now tabs (dupPass tabs)) t0.id := by
      refine (candsFor_detect now tabs t0.id).mem_iff.mp ?_
      rw [← hcid]
      exact mem_candsFor_of_mem hc
    by_cases hidle : idleOf now t0 < STALE_THRESHOLD_MS
    · rw [if_pos hidle] at h2
      rw [h2] at hcf
      cases hcf
    · rw [if_neg hidle, if_pos rfl] at h2
      rw [h2] at hcf
      have := List.mem_singleton.mp hcf
      rw [this, mkStaleCand]
      exact ⟨rfl, rfl⟩

/-- C1 counterexample. The claim as frozen has no freshness proviso, but on
a list whose single duplicate set (two tabs, both `lastAccessed` 0, probed
at `now` exactly the 2-hour threshold) is also stale,
`detectCleanupCandidates` returns 2 records instead of `N - 1 = 1`, and not
every record has reason `'duplicate'`: the non-keeper is upgraded to
`'stale+duplicate'` and the keeper gets its own `'stale'` record. -/
theorem detect_single_dup_group_cx :
    (∀ t ∈ ([⟨1, "t", "a", some 0⟩, ⟨2, "t", "a", some 0⟩] : List Tab),
      t.url = "a" ∧ t.url ≠ "") ∧
    (([⟨1, "t", "a", some 0⟩, ⟨2, "t", "a", some 0⟩] : List Tab).map Tab.id).Nodup ∧
    (urlGroup [⟨1, "t", "a", some 0⟩, ⟨2, "t", "a", some 0⟩] "a").length = 2 ∧
    (detectCleanupCandidates 7200000 [⟨1, "t", "a", some 0⟩, ⟨2, "t", "a", some 0⟩]).length ≠ 2 - 1 ∧
    ¬ (∀ c ∈ detectCleanupCandidates 7200000 [⟨1, "t", "a", some 0⟩, ⟨2, "t", "a", some 0⟩],
        c.reason = CleanupReason.duplicate) := by decide

/-- C1 witness: three fresh tabs, two sharing URL `"a"`, one unique; the
keeper is the shared-URL tab with the greater `lastAccessed`. -/
theorem detect_single_dup_group_witness :
    ∃ keeper,
      keeper ∈ ([⟨1, "t", "a", some 5⟩, ⟨2, "t", "a", some 9⟩, ⟨3, "t", "b", some 7⟩] : List Tab) ∧
      keeper.url = "a" ∧
      (detectCleanupCandidates 10
        [⟨1, "t", "a", some 5⟩, ⟨2, "t", "a", some 9⟩, ⟨3, "t", "b", some 7⟩]).length = 2 - 1 ∧
      (∀ c ∈ detectCleanupCandidates 10
          [⟨1, "t", "a", some 5⟩, ⟨2, "t", "a", some 9⟩, ⟨3, "t", "b", some 7⟩],
        c.reason = CleanupReason.duplicate ∧ c.duplicateOfTabId = some keeper.id ∧
        c.tabId ≠ keeper.id) ∧
      (∀ t ∈ ([⟨1, "t", "a", some 5⟩, ⟨2, "t", "a", some 9⟩, ⟨3, "t", "b", some 7⟩] : List Tab),
        t.url = "a" → t ≠ keeper →
        laD t < laD keeper ∨ (laD t = laD keeper ∧ t.id < keeper.id)) :=
  detect_single_dup_group 10
    [⟨1, "t", "a", some 5⟩, ⟨2, "t", "a", some 9⟩, ⟨3, "t", "b", some 7⟩] "a" 2
    (by decide) (by decide) (by decide) (by decide) (by decide) (by decide)

/-- C2 witness: tab 1 is both stale and the non-keeper duplicate of tab 2;
the single record for it carries the combined reason. -/
theorem detect_one_record_per_tab_witness :
    candsFor (detectCleanupCandidates 7200000
      [⟨1, "t", "a", some 0⟩, ⟨2, "t", "a", some 0⟩]) 1 =
      [⟨1, CleanupReason.staleDuplicate, 0, some 2⟩] ∧
    (some 2 : Option Nat) ≠ none :=
  (detect_one_record_per_tab 7200000
      [⟨1, "t", "a", some 0⟩, ⟨2, "t", "a", some 0⟩]).2
    ⟨1, "t", "a", some 0⟩ (by decide) (by decide) (by decide)
    ⟨1, CleanupReason.duplicate, 0, some 2⟩ (by decide) rfl

/-- C3 witness: the spec's concrete scenario — a tab idle 3 hours against
the 2-hour threshold yields exactly one plain `'stale'` record. -/
theorem detect_stale_iff_witness :
    candsFor (detectCleanupCandidates 10800000 [⟨5, "t", "x", some 0⟩]) 5 =
      [⟨5, CleanupReason.stale, 0, none⟩] :=
  (detect_stale_iff 10800000 [⟨5, "t", "x", some 0⟩] ⟨5, "t", "x", some 0⟩
    (by decide) (by decide)).2.2 (by decide) (by decide)

/-- C10 counterexample. A missing `lastAccessed` does not always lose
keeper selection to a recorded timestamp: against a tab recorded exactly
at the epoch (`some 0`) the ranks tie at 0 and the greatest-id tie-break
makes the timestamp-less tab 2 the keeper — tab 1, which has a recorded
timestamp, is the one flagged as its duplicate. -/
theorem detect_missing_lastAccessed_cx :
    detectCleanupCandidates 0 [⟨1, "t", "a", some 0⟩, ⟨2, "t", "a", none⟩] =
      [⟨1, CleanupReason.duplicate, 0, some 2⟩] := by decide

/-- C10 witness: tab 2 (no timestamp) loses the keeper selection to tab 1
(recorded positive timestamp), its record has `lastAccessed` 0 and sorts
first; the empty-URL tab 3 is untouched by the duplicate pass. -/
theorem detect_missing_lastAccessed_witness :
    (detectCleanupCandidates 10
      [⟨1, "t", "a", some 5⟩, ⟨2, "t", "a", none⟩, ⟨3, "t", "", some 7⟩]).head? =
      some ⟨2, CleanupReason.duplicate, 0, some 1⟩ ∧
    (∀ c ∈ detectCleanupCandidates 10
        [⟨1, "t", "a", some 5⟩, ⟨2, "t", "a", none⟩, ⟨3, "t", "", some 7⟩],
      c.tabId = 3 →
      c.reason = CleanupReason.stale ∧ c.duplicateOfTabId = none) := by
  have h := detect_missing_lastAccessed 10
    [⟨1, "t", "a", some 5⟩, ⟨2, "t", "a", none⟩, ⟨3, "t", "", some 7⟩]
    ⟨2, "t", "a", none⟩ ⟨1, "t", "a", some 5⟩ 5
    (by decide) (by decide) rfl (by decide) (by decide) rfl rfl (by decide)
  obtain ⟨⟨kid, hkne, hmem, hhead⟩, hempty⟩ := h
  have hdet : detectCleanupCandidates 10
      [⟨1, "t", "a", some 5⟩, ⟨2, "t", "a", none⟩, ⟨3, "t", "", some 7⟩] =
      [⟨2, CleanupReason.duplicate, 0, some 1⟩] := by decide
  rw [hdet] at hmem
  have heq := List.mem_singleton.mp hmem
  have hkid : kid = 1 := by
    have := congrArg CleanupCandidate.duplicateOfTabId heq
    simpa using this
  rw [hkid] at hhead
  exact ⟨hhead (by decide), fun c hc hc3 => hempty ⟨3, "t", "", some 7⟩ (by decide) rfl c hc hc3⟩

/-! ## The apply engine -/

lemma tabsRemove_ops (ids : List Nat) :
    ∀ s : Browser, ∃ δ, (tabsRemove ids s).1.ops = s.ops ++ δ ∧
      ∀ o ∈ δ, o.isRemove = true := by
  induction ids with
  | nil => intro s; exact ⟨[], by simp [tabsRemove], by simp⟩
  | cons id rest ih =>
    intro s
    by_cases h : id ∈ s.openIds
    · obtain ⟨δ, h1, h2⟩ := ih
        { s with openIds := s.openIds.filter (fun x => x ≠ id),
                 ops := s.ops ++ [.removeTab id] }
      refine ⟨MutOp.removeTab id :: δ, ?_, ?_⟩
      · rw [tabsRemove, if_pos h, h1]
        simp
      · intro o ho
        rcases List.mem_cons.mp ho with ho | ho
        · rw [ho]; rfl
        · exact h2 o ho
    · rw [tabsRemove, if_neg h]
      exact ⟨[], by simp, by simp⟩

lemma foldl_ops_extend {α : Type} (f : Browser → α → Browser) (l : List α)
    (hf : ∀ s a, ∃ δ, (f s a).ops = s.ops ++ δ ∧ ∀ o ∈ δ, o.isRemove = false) :
    ∀ s, ∃ δ, (l.foldl f s).ops = s.ops ++ δ ∧ ∀ o ∈ δ, o.isRemove = false := by
  induction l with
  | nil => intro s; exact ⟨[], by simp, by simp⟩
  | cons a l ih =>
    intro s
    obtain ⟨δ₁, h1, h2⟩ := hf s a
    obtain ⟨δ₂, h3, h4⟩ := ih (f s a)
    refine ⟨δ₁ ++ δ₂, ?_, ?_⟩
    · rw [List.foldl_cons, h3, h1, List.append_assoc]
    · intro o ho
      rcases List.mem_append.mp ho with ho | ho
      · exact h2 o ho
      · exact h4 o ho

lemma applyGroupChrome_ops (ex : List Nat) (s : Browser) (g : TabGroupProposal) :
    ∃ δ, (applyGroupChrome ex s g).ops = s.ops ++ δ ∧ ∀ o ∈ δ, o.isRemove = false := by
  rw [applyGroupChrome]
  by_cases h : g.tabIds.filter (fun i => ex.contains i) = []
  · rw [if_pos h]
    exact ⟨[], by simp, by simp⟩
  · rw [if_neg h]
    refine ⟨_, rfl, ?_⟩
    intro o ho
    rcases List.mem_cons.mp ho with ho | ho
    · rw [ho]; rfl
    · rcases List.mem_cons.mp ho with ho | ho
      · rw [ho]; rfl
      · cases ho

lemma applyGroupVivaldi_ops (s : Browser) (g : TabGroupProposal) :
    ∃ δ, (applyGroupVivaldi s g).ops = s.ops ++ δ ∧ ∀ o ∈ δ, o.isRemove = false := by
  rw [applyGroupVivaldi]
  by_cases h : g.tabIds = []
  · rw [if_pos h]
    exact ⟨[], by simp, by simp⟩
  · rw [if_neg h]
    refine foldl_ops_extend _ g.tabIds ?_ _
    intro s' i
    by_cases hi : i ∈ s'.openIds
    · rw [if_pos hi]
      refine ⟨[.updateTab i s.nextId g.groupName (vivaldiColor g.color)], rfl, ?_⟩
      intro o ho
      rcases List.mem_singleton.mp ho with rfl
      rfl
    · rw [if_neg hi]
      exact ⟨[], by simp, by simp⟩

lemma applyTabGroups_ops (strategy : GroupingStrategy) (groups : List TabGroupProposal)
    (s : Browser) :
    ∃ δ, (applyTabGroups strategy groups s).1.ops = s.ops ++ δ ∧
      ∀ o ∈ δ, o.isRemove = false := by
  cases strategy with
  | vivaldiStacks =>
    exact foldl_ops_extend applyGroupVivaldi groups (fun s' g => applyGroupVivaldi_ops s' g) s
  | chromeGroups =>
    exact foldl_ops_extend (applyGroupChrome s.openIds) groups
      (fun s' g => applyGroupChrome_ops s.openIds s' g) s
  | unsupported => exact ⟨[], by simp [applyTabGroups], by simp⟩

lemma applyGroupChrome_empty (ex : List Nat) (s : Browser) {g : TabGroupProposal}
    (h : g.tabIds = []) : applyGroupChrome ex s g = s := by
  rw [applyGroupChrome, h]
  simp

lemma applyGroupVivaldi_empty (s : Browser) {g : TabGroupProposal}
    (h : g.tabIds = []) : applyGroupVivaldi s g = s := by
  rw [applyGroupVivaldi, if_pos h]

lemma stripClosed_nil (groups : List TabGroupProposal) :
    stripClosed [] groups = groups.filter (fun g => !g.tabIds.isEmpty) := by
  rw [stripClosed]
  congr 1
  have h : ∀ g : TabGroupProposal,
      ({ g with tabIds := g.tabIds.filter (fun i => !(([] : List Nat).contains i)) }) = g := by
    intro g
    have : g.tabIds.filter (fun i => !(([] : List Nat).contains i)) = g.tabIds :=
      List.filter_eq_self.mpr (fun a _ => by simp)
    cases g
    simp only at this ⊢
    rw [this]
  induction groups with
  | nil => rfl
  | cons g gs ih => rw [List.map_cons, h g, ih]

lemma apply_skip_empty (strategy : GroupingStrategy) (groups : List TabGroupProposal)
    (s : Browser) :
    applyTabGroups strategy (groups.filter (fun g => !g.tabIds.isEmpty)) s =
      applyTabGroups strategy groups s := by
  cases strategy with
  | unsupported => rfl
  | chromeGroups =>
    simp only [applyTabGroups]
    rw [foldlFilterSkip _ _ groups ?_ s]
    intro g hg s'
    have hge : g.tabIds = [] := by simpa using hg
    exact applyGroupChrome_empty s.openIds s' hge
  | vivaldiStacks =>
    simp only [applyTabGroups]
    rw [foldlFilterSkip _ _ groups ?_ s]
    intro g hg s'
    have hge : g.tabIds = [] := by simpa using hg
    exact applyGroupVivaldi_empty s' hge

/-- C4 (amended with an unsupported-strategy proviso). In `applyCleanup`
the closure step strictly precedes the grouping step (the op trace splits
into tab removals followed by non-removal ops), every id in
`tabIdsToClose` is stripped from every group before the grouping dispatch
and groups left empty are dropped; and `applyCleanup([], groups)` with all
tab ids present behaves identically to the bare grouping step
`applyTabGroups(groups)` provided the strategy is supported or some group
is non-empty (under the unsupported strategy with only empty groups,
`applyCleanup` never reaches the dispatch and succeeds as a no-op while
the bare grouping step throws). -/
theorem applyCleanup_close_then_group (strategy : GroupingStrategy) (ids : List Nat)
    (groups : List TabGroupProposal) (s : Browser) :
    (∃ δc δg, (applyCleanup strategy ids groups s).1.ops = s.ops ++ δc ++ δg ∧
      (∀ o ∈ δc, o.isRemove = true) ∧ (∀ o ∈ δg, o.isRemove = false)) ∧
    (∀ g ∈ stripClosed ids groups, g.tabIds ≠ [] ∧ ∀ i ∈ g.tabIds, i ∉ ids) ∧
    ((∀ g ∈ groups, ∀ i ∈ g.tabIds, i ∈ s.openIds) →
      (strategy ≠ GroupingStrategy.unsupported ∨ ∃ g ∈ groups, g.tabIds ≠ []) →
      applyCleanup strategy [] groups s = applyTabGroups strategy groups s) := by
  refine ⟨?_, ?_, ?_⟩
  · obtain ⟨δc, h1, h2⟩ :
        ∃ δc, (if ids = [] then s else (tabsRemove ids s).1).ops = s.ops ++ δc ∧
          ∀ o ∈ δc, o.isRemove = true := by
      by_cases h : ids = []
      · rw [if_pos h]; exact ⟨[], by simp, by simp⟩
      · rw [if_neg h]; exact tabsRemove_ops ids s
    obtain ⟨δg, h3, h4⟩ :
        ∃ δg, ((if groups = [] then
            ((if ids = [] then s else (tabsRemove ids s).1), Except.ok ())
          else if stripClosed ids groups = [] then
            ((if ids = [] then s else (tabsRemove ids s).1), Except.ok ())
          else applyTabGroups strategy (stripClosed ids groups)
            (if ids = [] then s else (tabsRemove ids s).1)).1).ops =
          (if ids = [] then s else (tabsRemove ids s).1).ops ++ δg ∧
          ∀ o ∈ δg, o.isRemove = false := by
      by_cases hg : groups = []
      · rw [if_pos hg]; exact ⟨[], by simp, by simp⟩
      · rw [if_neg hg]
        by_cases hf : stripClosed ids groups = []
        · rw [if_pos hf]; exact ⟨[], by simp, by simp⟩
        · rw [if_neg hf]
          exact applyTabGroups_ops strategy (stripClosed ids groups) _
    refine ⟨δc, δg, ?_, h2, h4⟩
    have hred : applyCleanup strategy ids groups s =
        (if groups = [] then
          ((if ids = [] then s else (tabsRemove ids s).1), Except.ok ())
        else if stripClosed ids groups = [] then
          ((if ids = [] then s else (tabsRemove ids s).1), Except.ok ())
        else applyTabGroups strategy (stripClosed ids groups)
          (if ids = [] then s else (tabsRemove ids s).1)) := rfl
    rw [hred, h3, h1, List.append_assoc]
  · intro g hg
    rw [stripClosed] at hg
    have hm := List.mem_filter.mp hg
    have hne : g.tabIds ≠ [] := by
      intro he
      have := hm.2
      rw [he] at this
      simp at this
    obtain ⟨g0, hg0, rfl⟩ := List.mem_map.mp hm.1
    refine ⟨hne, ?_⟩
    intro i hi
    simp only [List.mem_filter] at hi
    have := hi.2
    simpa using this
  · intro hpres hcase
    have hred : applyCleanup strategy [] groups s =
        (if groups = [] then (s, Except.ok ())
        else if stripClosed [] groups = [] then (s, Except.ok ())
        else applyTabGroups strategy (stripClosed [] groups) s) := rfl
    rw [hred, stripClosed_nil]
    by_cases hg : groups = []
    · rw [if_pos hg, hg]
      have hstr : strategy ≠ GroupingStrategy.unsupported := by
        rcases hcase with h | ⟨g, hg', _⟩
        · exact h
        · rw [hg] at hg'; cases hg'
      cases strategy with
      | chromeGroups => rfl
      | vivaldiStacks => rfl
      | unsupported => exact absurd rfl hstr
    · rw [if_neg hg]
      by_cases hfil : groups.filter (fun g => !g.tabIds.isEmpty) = []
      · rw [if_pos hfil]
        have hall : ∀ g ∈ groups, g.tabIds = [] := by
          intro g hgm
          by_contra hne
          have hmem : g ∈ groups.filter (fun g => !g.tabIds.isEmpty) :=
            List.mem_filter.mpr ⟨hgm, by simpa using hne⟩
          rw [hfil] at hmem
          cases hmem
        have hstr : strategy ≠ GroupingStrategy.unsupported := by
          rcases hcase with h | ⟨g, hgm, hne⟩
          · exact h
          · exact absurd (hall g hgm) hne
        cases strategy with
        | unsupported => exact absurd rfl hstr
        | chromeGroups =>
          simp only [applyTabGroups]
          rw [foldlSkip _ groups (fun g hgm s' => applyGroupChrome_empty s.openIds s' (hall g hgm)) s]
        | vivaldiStacks =>
          simp only [applyTabGroups]
          rw [foldlSkip _ groups (fun g hgm s' => applyGroupVivaldi_empty s' (hall g hgm)) s]
      · rw [if_neg hfil]
        exact apply_skip_empty strategy groups s

/-- C4 counterexample. Under the cached `'unsupported'` strategy with a
single empty group (all tab ids — there are none — trivially present),
`applyCleanup([], groups)` succeeds without reaching the dispatch, while
applying only the grouping step throws: the two are not identical. -/
theorem applyCleanup_grouping_only_cx :
    (applyCleanup GroupingStrategy.unsupported [] [⟨"G", "blue", []⟩] ⟨[1], 0, []⟩).2 =
      Except.ok () ∧
    (applyTabGroups GroupingStrategy.unsupported [⟨"G", "blue", []⟩] ⟨[1], 0, []⟩).2 =
      Except.error "Tab grouping is not supported in this browser" ∧
    applyCleanup GroupingStrategy.unsupported [] [⟨"G", "blue", []⟩] ⟨[1], 0, []⟩ ≠
      applyTabGroups GroupingStrategy.unsupported [⟨"G", "blue", []⟩] ⟨[1], 0, []⟩ := by
  refine ⟨rfl, rfl, ?_⟩
  intro h
  exact Except.noConfusion (congrArg Prod.snd h)

/-- C4 witness: closing tab 17 strips it from the proposed group before
grouping, and with nothing to close `applyCleanup` coincides with the
bare grouping step. -/
theorem applyCleanup_close_then_group_witness :
    (∀ g ∈ stripClosed [17] [⟨"G", "blue", [17, 40]⟩],
      g.tabIds ≠ [] ∧ ∀ i ∈ g.tabIds, i ∉ ([17] : List Nat)) ∧
    applyCleanup GroupingStrategy.chromeGroups [] [⟨"G", "blue", [17, 40]⟩] ⟨[17, 40], 0, []⟩ =
      applyTabGroups GroupingStrategy.chromeGroups [⟨"G", "blue", [17, 40]⟩] ⟨[17, 40], 0, []⟩ := by
  have h := applyCleanup_close_then_group GroupingStrategy.chromeGroups [17]
    [⟨"G", "blue", [17, 40]⟩] ⟨[17, 40], 0, []⟩
  exact ⟨h.2.1, h.2.2 (by decide) (Or.inl (by decide))⟩

/-- C5, evaluated at the failing input. Tab 17 is already closed
out-of-band, tab 23 is open, and both are in the close batch. The single
batched `chrome.tabs.remove` aborts at 17 (Chromium closes ids in order
and fails on the first missing one), the error is swallowed, and the call
proceeds to the grouping step — but tab 23, the remaining id of the
batch, is never closed: no removal op is emitted and 23 stays open,
contradicting the claimed per-id skip-and-continue semantics. -/
theorem applyCleanup_batch_close_aborts :
    applyCleanup GroupingStrategy.chromeGroups [17, 23] [⟨"G", "blue", [40]⟩] ⟨[23, 40], 0, []⟩ =
      (⟨[23, 40], 1, [.groupTabs 0 [40], .updateGroup 0 "G" "blue"]⟩, Except.ok ()) ∧
    23 ∈ (applyCleanup GroupingStrategy.chromeGroups [17, 23] [⟨"G", "blue", [40]⟩]
      ⟨[23, 40], 0, []⟩).1.openIds := by
  exact ⟨rfl, by decide⟩

/-- C7. Dispatching any group application while the cached strategy is
`'unsupported'` raises the clear error before any tab mutation: the
browser state (and so its op trace) is returned unchanged alongside the
error — never a silent no-op, never a partial application. -/
theorem applyTabGroups_unsupported_fails (groups : List TabGroupProposal) (s : Browser)
    (_hne : groups ≠ []) :
    applyTabGroups GroupingStrategy.unsupported groups s =
      (s, Except.error "Tab grouping is not supported in this browser") := rfl

/-- C7 witness. -/
theorem applyTabGroups_unsupported_fails_witness :
    applyTabGroups GroupingStrategy.unsupported [⟨"G", "blue", [1]⟩] ⟨[1], 0, []⟩ =
      (⟨[1], 0, []⟩, Except.error "Tab grouping is not supported in this browser") :=
  applyTabGroups_unsupported_fails [⟨"G", "blue", [1]⟩] ⟨[1], 0, []⟩ (by decide)

/-- C8. Capability detection is an ordered first-match-wins
classification: native `chrome.tabGroups` wins; otherwise the probed first
tab's Vivaldi extension-data field selects the metadata-stacks strategy;
otherwise — a failing probe, an empty window, or a probed tab without the
field — the result is `'unsupported'`. -/
theorem detectStrategy_first_match (h : Host) :
    (detectStrategy h = GroupingStrategy.chromeGroups ↔ h.hasTabGroups = true) ∧
    (detectStrategy h = GroupingStrategy.vivaldiStacks ↔
      (h.hasTabGroups = false ∧
        ∃ t ts, h.queryTabs = Except.ok (t :: ts) ∧ t.hasVivExtData = true)) ∧
    (detectStrategy h = GroupingStrategy.unsupported ↔
      (h.hasTabGroups = false ∧
        ∀ t ts, h.queryTabs = Except.ok (t :: ts) → t.hasVivExtData = false)) := by
  obtain ⟨htg, q⟩ := h
  cases htg with
  | true => simp [detectStrategy]
  | false =>
    cases q with
    | error e => simp [detectStrategy]
    | ok l =>
      cases l with
      | nil => simp [detectStrategy]
      | cons t ts =>
        cases htv : t.hasVivExtData with
        | true => simp [detectStrategy, htv]
        | false => simp [detectStrategy, htv]

/-- C6 (amended). `categorizeTabs` with a non-empty tab list and an empty
credential fails immediately with the configuration error, performs zero
network calls, and leaves the background job slot untouched — in
particular the job status is *not* set to `'error'`; the background
`categorizeTabsAI` itself performs no credential validation at all. -/
theorem categorizeTabs_empty_credential (resp : AIResponse) (tabs : List Tab)
    (settings : Settings) (s : JobState) (hne : tabs ≠ []) (hkey : settings.apiKey = "") :
    categorizeTabs resp tabs settings s =
      (Except.error "No API key configured. Open settings to add your OpenRouter API key.",
        s, 0) := by
  rw [categorizeTabs, if_neg hne, if_pos hkey]

/-- C6 counterexample. At the concrete empty-credential input the claimed
"job status immediately `'error'`" is false: the popup-side check throws
before the background job is ever started, so the slot stays `'idle'`;
and the background `startJob` path (`categorizeTabsAI`), which the claim
also covers, performs one network call even with an empty credential. -/
theorem categorizeTabs_empty_credential_cx :
    (categorizeTabs AIResponse.noContent [⟨1, "t", "a", none⟩] ⟨"", "m"⟩
      ⟨JobStatus.idle, [], ""⟩).2.1.status ≠ JobStatus.error ∧
    (categorizeTabsAI AIResponse.noContent [⟨1, "t", "a", none⟩] ⟨"", "m"⟩).2 = 1 := by
  decide

/-- C6 witness. -/
theorem categorizeTabs_empty_credential_witness :
    categorizeTabs AIResponse.noContent [⟨1, "t", "a", none⟩] ⟨"", "m"⟩
      ⟨JobStatus.idle, [], ""⟩ =
      (Except.error "No API key configured. Open settings to add your OpenRouter API key.",
        ⟨JobStatus.idle, [], ""⟩, 0) :=
  categorizeTabs_empty_credential AIResponse.noContent [⟨1, "t", "a", none⟩] ⟨"", "m"⟩
    ⟨JobStatus.idle, [], ""⟩ (by decide) rfl

/-- C8 witness: the spec's concrete scenario — no native group capability,
probed tab carries the stacking field, detection resolves to the
metadata-stacks strategy. -/
theorem detectStrategy_first_match_witness :
    detectStrategy ⟨false, Except.ok [⟨7, true⟩]⟩ = GroupingStrategy.vivaldiStacks :=
  ((detectStrategy_first_match ⟨false, Except.ok [⟨7, true⟩]⟩).2.1).mpr
    ⟨rfl, ⟨7, true⟩, [], rfl, rfl⟩
